import Mathlib

/-!
Verification development for the google/vr180 repository.

Two cores are modelled here, following the C++ sources:

* the MP4 atom (ISO-BMFF box) engine: `cpp/video/atom.cc`,
  `cpp/video/atom_reader.cc`, `cpp/video/atom_writer.cc`,
  `cpp/video/atom_registry.cc`, `cpp/video/modify_moov.cc` and the typed
  atoms `atom_stco.cc`, `atom_elst.cc`, `atom_sdtp.cc`;
* the sensor-fusion core: `cpp/sensor_fusion/stationary_detector.cc`,
  `cpp/sensor_fusion/quaternion_integrator.cc` and the parts of
  `cpp/sensor_fusion/orientation_filter.h/.cc` that the claims mention.

Bytes are modelled as natural numbers below 256; machine integers are
modelled as `Nat`/`Int` with explicit `% 2^w` truncation exactly where the
C++ performs a narrowing conversion.  Floating-point state is modelled over
`ℚ` (for the stationary detector, whose claims only compare filter outputs
against constant thresholds) and over `ℝ` (for the quaternion filter, whose
claims speak about exact unit norms).
-/

namespace vr180

/-! ## Byte-stream primitives

`BinaryWriterImpl` (cpp/video/binary_writer_impl.cc) writes big-endian
integers; `BinaryReaderImpl` (cpp/video/binary_reader_impl.cc) reads them
and fails (sets the stream fail bit, surfaced as a FormatStatus error) when
the stream has fewer bytes than requested.  A byte stream is a `List ℕ`
whose entries are below 256; writers truncate their argument exactly like
the C++ narrowing to uint8/uint16/uint32/uint64 does. -/

/-- BinaryWriter::PutUInt8: one byte, value truncated to 8 bits. -/
def PutUInt8 (v : ℕ) : List ℕ := [v % 2 ^ 8]

/-- BinaryWriter::PutUInt16: two bytes, big endian, truncated to 16 bits. -/
def PutUInt16 (v : ℕ) : List ℕ := [v / 2 ^ 8 % 2 ^ 8, v % 2 ^ 8]

/-- BinaryWriter::PutUInt24: three bytes, big endian, truncated to 24 bits. -/
def PutUInt24 (v : ℕ) : List ℕ :=
  [v / 2 ^ 16 % 2 ^ 8, v / 2 ^ 8 % 2 ^ 8, v % 2 ^ 8]

/-- BinaryWriter::PutUInt32: four bytes, big endian, truncated to 32 bits. -/
def PutUInt32 (v : ℕ) : List ℕ :=
  [v / 2 ^ 24 % 2 ^ 8, v / 2 ^ 16 % 2 ^ 8, v / 2 ^ 8 % 2 ^ 8, v % 2 ^ 8]

/-- BinaryWriter::PutUInt64: eight bytes, big endian, truncated to 64 bits. -/
def PutUInt64 (v : ℕ) : List ℕ :=
  [v / 2 ^ 56 % 2 ^ 8, v / 2 ^ 48 % 2 ^ 8, v / 2 ^ 40 % 2 ^ 8,
   v / 2 ^ 32 % 2 ^ 8, v / 2 ^ 24 % 2 ^ 8, v / 2 ^ 16 % 2 ^ 8,
   v / 2 ^ 8 % 2 ^ 8, v % 2 ^ 8]

/-- BinaryReader::ReadUInt8: fails (EOF) when no byte is left. -/
def ReadUInt8 : List ℕ → Option (ℕ × List ℕ)
  | b0 :: rest => some (b0, rest)
  | _ => none

/-- BinaryReader::ReadUInt16, big endian. -/
def ReadUInt16 : List ℕ → Option (ℕ × List ℕ)
  | b0 :: b1 :: rest => some (b0 * 2 ^ 8 + b1, rest)
  | _ => none

/-- BinaryReader::ReadUInt24, big endian. -/
def ReadUInt24 : List ℕ → Option (ℕ × List ℕ)
  | b0 :: b1 :: b2 :: rest => some (b0 * 2 ^ 16 + b1 * 2 ^ 8 + b2, rest)
  | _ => none

/-- BinaryReader::ReadUInt32, big endian. -/
def ReadUInt32 : List ℕ → Option (ℕ × List ℕ)
  | b0 :: b1 :: b2 :: b3 :: rest =>
      some (b0 * 2 ^ 24 + b1 * 2 ^ 16 + b2 * 2 ^ 8 + b3, rest)
  | _ => none

/-- BinaryReader::ReadUInt64, big endian. -/
def ReadUInt64 : List ℕ → Option (ℕ × List ℕ)
  | b0 :: b1 :: b2 :: b3 :: b4 :: b5 :: b6 :: b7 :: rest =>
      some (b0 * 2 ^ 56 + b1 * 2 ^ 48 + b2 * 2 ^ 40 + b3 * 2 ^ 32 +
        b4 * 2 ^ 24 + b5 * 2 ^ 16 + b6 * 2 ^ 8 + b7, rest)
  | _ => none

/-- BinaryReader::ReadString with size 4, used for atom type tags; the four
raw bytes are kept as a list. -/
def ReadTag : List ℕ → Option (List ℕ × List ℕ)
  | b0 :: b1 :: b2 :: b3 :: rest => some ([b0, b1, b2, b3], rest)
  | _ => none

/-! ## The atom tree

`Atom` (cpp/video/atom.h) is a polymorphic node: a 4-byte type tag, a
header size (8 or 16 bytes), a payload size `data_size`, an optional 4-byte
null terminator, atom-specific payload data, and an ordered list of child
atoms.  The payload data depends on the concrete class:

* `AtomDefault` (cpp/video/atom_registry.cc) preserves its raw payload
  bytes and reports `GetDataSizeWithoutChildren() = data_size()`, so it
  never has children;
* the pure container atoms (`AtomMOOV`, `AtomTRAK`, `AtomMDIA`, `AtomMINF`,
  `AtomSTBL`, `AtomEDTS`, `AtomSV3D`) carry no payload of their own;
* `AtomSTCO` (cpp/video/atoms/atom_stco.cc) is modelled with its full
  state (version/flags of `FullAtom`, chunk offsets, `moov_size_delta_`,
  `max_chunk_offset_`) because `ModifyMoov` rewrites it.

The remaining registered leaf codecs (`elst`, `sdtp`, `stss`, `stsd`,
`tkhd`, `hdlr`, `st3d`, `camm`, `uuid`, visual sample entries) are modelled
by the byte-preserving default here; the `elst` and `sdtp` codecs have
their own standalone models further below, next to the claims about them.

Children are a mutually inductive list so that all functions on trees are
plain structural recursions (and hence evaluate by `decide`). -/

/-- State of AtomSTCO (cpp/video/atoms/atom_stco.h): FullAtom version and
flags, the chunk offset table, the pending `moov_size_delta_` that is added
to every offset on write, and `max_chunk_offset_`, the largest value stored
in the table (0 when the table is empty). -/
structure STCOData where
  version : ℕ
  flags : ℕ
  chunk_offsets : List ℕ
  moov_size_delta : ℤ
  max_chunk_offset : ℕ
  deriving Repr, DecidableEq

/-- Atom-specific payload: the byte-preserving default, a pure container,
or the typed chunk-offset table. -/
inductive AtomKind where
  | dflt (payload : List ℕ)
  | container
  | stco (d : STCOData)
  deriving Repr, DecidableEq

mutual
/-- An MP4 atom (cpp/video/atom.h): type tag (4 raw bytes), header size,
payload size, null-terminator flag, atom-specific data and children. -/
inductive Atom where
  | mk (atom_type : List ℕ) (header_size : ℕ) (data_size : ℕ)
       (has_null_terminator : Bool) (kind : AtomKind) (children : AtomList)
  deriving Repr, DecidableEq
/-- The ordered child list of an atom. -/
inductive AtomList where
  | nil
  | cons (a : Atom) (as : AtomList)
  deriving Repr, DecidableEq
end

namespace Atom

/-- Atom::atom_type(). -/
def atom_type : Atom → List ℕ
  | .mk t _ _ _ _ _ => t

/-- Atom::header_size(). -/
def header_size : Atom → ℕ
  | .mk _ h _ _ _ _ => h

/-- Atom::data_size(). -/
def data_size : Atom → ℕ
  | .mk _ _ d _ _ _ => d

/-- Atom::has_null_terminator(). -/
def has_null_terminator : Atom → Bool
  | .mk _ _ _ b _ _ => b

/-- The atom-specific payload data. -/
def kind : Atom → AtomKind
  | .mk _ _ _ _ k _ => k

/-- The child list. -/
def children : Atom → AtomList
  | .mk _ _ _ _ _ c => c

/-- Atom::size() = header_size() + data_size(). -/
def size (a : Atom) : ℕ := a.header_size + a.data_size

end Atom

namespace AtomList

/-- Number of children (Atom::NumChildren()). -/
def length : AtomList → ℕ
  | .nil => 0
  | .cons _ as => as.length + 1

/-- Sum of Atom::size() over the list (the loop in Atom::UpdateSize). -/
def sumSize : AtomList → ℕ
  | .nil => 0
  | .cons a as => a.size + as.sumSize

/-- View an AtomList as a plain list. -/
def toList : AtomList → List Atom
  | .nil => []
  | .cons a as => a :: as.toList

end AtomList

/-! ## The atom registry

`AtomRegistry::CreateAtom` (cpp/video/atom_registry.cc) looks a type tag up
in the process-wide registration map and falls back to the byte-preserving
`AtomDefault`.  The registrations modelled here are the pure containers and
the chunk-offset atom.  The container registrations for mdia/minf/stbl/
edts/sv3d are modelled from the spec: their .cc files are not part of the
provided sources, and the spec lists them among the typed (container)
atoms; `moov` and `trak` registrations are in atom_moov.cc/atom_trak.cc.
Other registered leaf types are modelled by the default atom (see above). -/

/-- Tag "moov" as raw bytes. -/
def moovTag : List ℕ := [0x6d, 0x6f, 0x6f, 0x76]

/-- Tag "trak" as raw bytes. -/
def trakTag : List ℕ := [0x74, 0x72, 0x61, 0x6b]

/-- Tag "mdia" as raw bytes. -/
def mdiaTag : List ℕ := [0x6d, 0x64, 0x69, 0x61]

/-- Tag "minf" as raw bytes. -/
def minfTag : List ℕ := [0x6d, 0x69, 0x6e, 0x66]

/-- Tag "stbl" as raw bytes. -/
def stblTag : List ℕ := [0x73, 0x74, 0x62, 0x6c]

/-- Tag "edts" as raw bytes. -/
def edtsTag : List ℕ := [0x65, 0x64, 0x74, 0x73]

/-- Tag "sv3d" as raw bytes. -/
def sv3dTag : List ℕ := [0x73, 0x76, 0x33, 0x64]

/-- Tag "stco" as raw bytes (kType32 in atom_stco.cc). -/
def stcoTag : List ℕ := [0x73, 0x74, 0x63, 0x6f]

/-- Tag "co64" as raw bytes (kType64 in atom_stco.cc). -/
def co64Tag : List ℕ := [0x63, 0x6f, 0x36, 0x34]

/-- Tag "mdat" as raw bytes. -/
def mdatTag : List ℕ := [0x6d, 0x64, 0x61, 0x74]

/-- Tag "free" as raw bytes (kFreeType in modify_moov.cc). -/
def freeTag : List ℕ := [0x66, 0x72, 0x65, 0x65]

/-- Which concrete class the registry instantiates for a tag. -/
inductive RegKind where
  | dflt
  | container
  | stco
  deriving Repr, DecidableEq

/-- AtomRegistry::CreateAtom, restricted to the modelled registrations:
container atoms, the two chunk-offset types, and the default fallback. -/
def registryKind (tag : List ℕ) : RegKind :=
  if tag = moovTag ∨ tag = trakTag ∨ tag = mdiaTag ∨ tag = minfTag ∨
      tag = stblTag ∨ tag = edtsTag ∨ tag = sv3dTag then .container
  else if tag = stcoTag ∨ tag = co64Tag then .stco
  else .dflt

/-! ## AtomSTCO payload codec (cpp/video/atoms/atom_stco.cc) -/

/-- Entry width in bytes: 4 for "stco", 8 for "co64"
(kChunkOffsetSize32/kChunkOffsetSize64). -/
def stcoEntrySize (tag : List ℕ) : ℕ := if tag = stcoTag then 4 else 8

/-- The value stored for one chunk offset on write:
`chunk_offsets_[i] + moov_size_delta_` computed in uint64 arithmetic
(int64 is converted to uint64 in the C++ addition). -/
def stcoWrittenOffset (o : ℕ) (delta : ℤ) : ℕ :=
  (((o : ℤ) + delta) % (2 ^ 64 : ℤ)).toNat

/-- AtomSTCO::WriteDataWithoutChildren: version and flags, the entry count
as uint32, then each offset plus `moov_size_delta_` as uint32 ("stco") or
uint64 ("co64"). -/
def STCOWriteData (tag : List ℕ) (d : STCOData) : List ℕ :=
  PutUInt8 d.version ++ PutUInt24 d.flags ++
    PutUInt32 d.chunk_offsets.length ++
    (d.chunk_offsets.flatMap fun o =>
      if tag = stcoTag then PutUInt32 (stcoWrittenOffset o d.moov_size_delta)
      else PutUInt64 (stcoWrittenOffset o d.moov_size_delta))

/-- Read `n` chunk offsets of the given entry width (the loop in
AtomSTCO::ReadDataWithoutChildren). -/
def readSTCOOffsets (tag : List ℕ) : ℕ → List ℕ → Option (List ℕ × List ℕ)
  | 0, bs => some ([], bs)
  | n + 1, bs => do
      let (o, r) ← if tag = stcoTag then ReadUInt32 bs else ReadUInt64 bs
      let (os, r2) ← readSTCOOffsets tag n r
      some (o :: os, r2)

/-- AtomSTCO::ReadDataWithoutChildren: version and flags, the entry count
(checked against `data_size` by CheckNumberOfChunks), then the offsets;
`max_chunk_offset_` becomes the largest offset read (0 for an empty
table) and `moov_size_delta_` starts at 0. -/
def STCOReadData (tag : List ℕ) (dataSize : ℕ) (bs : List ℕ) :
    Option (STCOData × List ℕ) := do
  let (version, r1) ← ReadUInt8 bs
  let (flags, r2) ← ReadUInt24 r1
  let (num, r3) ← ReadUInt32 r2
  if dataSize < 8 + num * stcoEntrySize tag then none
  else do
    let (offsets, r4) ← readSTCOOffsets tag num r3
    some (⟨version, flags, offsets, 0, offsets.foldl max 0⟩, r4)

/-- AtomSTCO::GetDataSizeWithoutChildren. -/
def STCODataSize (tag : List ℕ) (d : STCOData) : ℕ :=
  8 + d.chunk_offsets.length * stcoEntrySize tag

/-- GetDataSizeWithoutChildren of the modelled atom kinds: `data_size()`
itself for the default atom, 0 for containers, the table size for stco. -/
def kindDataSize (tag : List ℕ) (dataSize : ℕ) : AtomKind → ℕ
  | .dflt _ => dataSize
  | .container => 0
  | .stco d => STCODataSize tag d

/-! ## WriteAtom (cpp/video/atom_writer.cc) -/

/-- WriteAtomHeader: a 32-bit size and the tag for 8-byte headers, the
marker 1, the tag and a 64-bit size for 16-byte headers; any other
recorded header size is a FILE_FORMAT_ERROR (`none`). -/
def WriteAtomHeader (a : Atom) : Option (List ℕ) :=
  if a.header_size = 8 then some (PutUInt32 a.size ++ a.atom_type)
  else if a.header_size = 16 then
    some (PutUInt32 1 ++ a.atom_type ++ PutUInt64 a.size)
  else none

/-- WriteDataWithoutChildren of the modelled atom kinds: the preserved
payload bytes for the default atom, nothing for containers, the
chunk-offset table for stco. -/
def writeKindData (tag : List ℕ) : AtomKind → List ℕ
  | .dflt payload => payload
  | .container => []
  | .stco d => STCOWriteData tag d

mutual
/-- WriteAtom: header, then WriteDataWithoutChildren, then all children in
order, then the 4-byte null terminator if set. -/
def WriteAtom : Atom → Option (List ℕ)
  | .mk t h d term k ch => do
      let hdr ← WriteAtomHeader (.mk t h d term k ch)
      let cs ← WriteChildAtoms ch
      some (hdr ++ writeKindData t k ++ cs ++ (if term then PutUInt32 0 else []))
/-- WriteChildAtoms: each child in order. -/
def WriteChildAtoms : AtomList → Option (List ℕ)
  | .nil => some []
  | .cons a as => do
      let b ← WriteAtom a
      let bs ← WriteChildAtoms as
      some (b ++ bs)
end

/-! ## ReadAtom (cpp/video/atom_reader.cc) -/

/-- ReadHeader: a 32-bit size and the 4-byte tag; size 1 announces a
64-bit size after the tag; size 0 means "to end of file" (the remaining
stream length).  Fails when the resulting size is smaller than the header
(FILE_FORMAT_ERROR) or on EOF. -/
def ReadHeader (bs : List ℕ) : Option (ℕ × ℕ × List ℕ × List ℕ) := do
  let (size32, r1) ← ReadUInt32 bs
  let (tag, r2) ← ReadTag r1
  if size32 = 1 then do
    let (size64, r3) ← ReadUInt64 r2
    if size64 < 16 then none else some (16, size64 - 16, tag, r3)
  else if size32 = 0 then
    -- size64 = input->Size() - input->Tell() + header_bytes, which is the
    -- stream length remaining at the start of the atom.
    if bs.length < 8 then none else some (8, bs.length - 8, tag, r2)
  else
    if size32 < 8 then none else some (8, size32 - 8, tag, r2)

/-- ReadDataWithoutChildren of the modelled atom kinds.  The default atom
clones the reader (preserving the payload bytes) and seeks past the
payload, which fails past EOF; containers read nothing; stco parses its
table. -/
def readKindData (tag : List ℕ) (dataSize : ℕ) (bs : List ℕ) :
    Option (AtomKind × List ℕ) :=
  match registryKind tag with
  | .dflt =>
      if dataSize ≤ bs.length then some (.dflt (bs.take dataSize), bs.drop dataSize)
      else none
  | .container => some (.container, bs)
  | .stco => (STCOReadData tag dataSize bs).map fun (d, r) => (.stco d, r)

mutual
/-- ReadAtom: header, typed payload, then greedy child parsing in the
remaining data area, then the trailing-4-bytes null-terminator heuristic
(the ignored terminator value is read as one uint32), and finally the
consumed-exactly-`size` postcondition. -/
def ReadAtom : ℕ → List ℕ → Option (Atom × List ℕ)
  | 0, _ => none
  | fuel + 1, bs => do
      let (hsz, dsz, tag, r1) ← ReadHeader bs
      let (k, r2) ← readKindData tag dsz r1
      let (children, r3) ←
        ReadChildAtoms fuel (dsz - kindDataSize tag dsz k) 0 r2
      -- Null terminator: exactly 4 bytes of the atom remain unconsumed.
      if hsz + dsz - (bs.length - r3.length) = 4 ∧
          bs.length - r3.length ≤ hsz + dsz then do
        let (_, r4) ← ReadUInt32 r3
        if bs.length - r4.length = hsz + dsz then
          some (.mk tag hsz dsz true k children, r4)
        else none
      else
        if bs.length - r3.length = hsz + dsz then
          some (.mk tag hsz dsz false k children, r3)
        else none
/-- ReadChildAtoms: read children while another minimal header fits into
the remaining child area (`sum_sizes + kMinSizeofAtomHeader <=
children_size`); a failed child read fails the parent. -/
def ReadChildAtoms : ℕ → ℕ → ℕ → List ℕ → Option (AtomList × List ℕ)
  | 0, _, _, _ => none
  | fuel + 1, csize, sum, bs =>
      if sum + 8 ≤ csize then do
        let (c, r) ← ReadAtom fuel bs
        let (cs, r2) ← ReadChildAtoms fuel csize (sum + c.size) r
        some (.cons c cs, r2)
      else some (.nil, bs)
end

/-- The top-level read loop (ReadAtoms in cpp/video/modify_moov.cc): read
atoms while input remains; a failed read breaks the loop and returns the
atoms read so far. -/
def ReadTopLevelAtoms : ℕ → List ℕ → List Atom
  | 0, _ => []
  | _, [] => []
  | fuel + 1, bs =>
      match ReadAtom (bs.length + 1) bs with
      | none => []
      | some (a, r) => a :: ReadTopLevelAtoms fuel r

/-- Serialize a list of top-level atoms in order (the output loop of
ModifyMoov). -/
def WriteTopLevelAtoms : List Atom → Option (List ℕ)
  | [] => some []
  | a :: as => do
      let b ← WriteAtom a
      let bs ← WriteTopLevelAtoms as
      some (b ++ bs)

mutual
/-- Fuel sufficient for ReadAtom to parse one serialized atom: one unit
for the node itself plus fuel for the child list (one unit per list step,
with enough left for the deepest child). -/
def needA : Atom → ℕ
  | .mk _ _ _ _ _ ch => needL ch + 1
/-- Fuel sufficient for ReadChildAtoms on a serialized child list. -/
def needL : AtomList → ℕ
  | .nil => 1
  | .cons a as => max (needA a) (needL as) + 1
end

/-! ## Well-formed atom trees

An atom tree is well-formed when it is size-consistent in the sense of
Atom::UpdateSize and its stored bytes are in range: the data size counts
the own payload, the children and the optional terminator; the header is
the 8- or the 16-byte form and an 8-byte header implies the total size
fits in 32 bits; a freshly parsed stco table has a zero delta and a
consistent maximum.  These are exactly the trees ReadAtom produces. -/

/-- Does the tag/kind pair match what the registry would instantiate? -/
def kindMatches (tag : List ℕ) : AtomKind → Bool
  | .dflt _ => registryKind tag = .dflt
  | .container => registryKind tag = .container
  | .stco _ => registryKind tag = .stco

/-- Range constraints of the stco state as produced by
AtomSTCO::ReadDataWithoutChildren. -/
def STCOWf (tag : List ℕ) (d : STCOData) : Bool :=
  d.version < 2 ^ 8 && d.flags < 2 ^ 24 && d.moov_size_delta = 0 &&
    d.max_chunk_offset = d.chunk_offsets.foldl max 0 &&
    d.chunk_offsets.length < 2 ^ 32 &&
    d.chunk_offsets.all fun o => o < 2 ^ (8 * stcoEntrySize tag)

mutual
/-- Well-formedness of a single atom (see the section comment). -/
def AtomWf : Atom → Bool
  | .mk tag hsz dsz term k ch =>
      tag.length = 4 && kindMatches tag k &&
      ((hsz = 8 && hsz + dsz < 2 ^ 32) || (hsz = 16 && hsz + dsz < 2 ^ 64)) &&
      (match k with
       | .dflt payload => ch = AtomList.nil && term = false && payload.length = dsz
       | .container =>
           dsz = ch.sumSize + (if term then 4 else 0) && AtomListWf ch
       | .stco d =>
           ch = AtomList.nil && term = false && dsz = STCODataSize tag d &&
             STCOWf tag d)
/-- Well-formedness of every atom in a child list. -/
def AtomListWf : AtomList → Bool
  | .nil => true
  | .cons a as => AtomWf a && AtomListWf as
end

/-- Well-formedness of a list of top-level atoms. -/
def TopWf (atoms : List Atom) : Bool := atoms.all AtomWf

/-! ## Atom mutations (cpp/video/atom.cc)

Atom::Update recomputes the node size (UpdateSize) and cascades to the
parent; in this functional model the cascade is the caller's rebuild of
the enclosing tree.  UpdateSize recomputes `data_size` from the own
payload, the children sizes and the terminator, then ComputeHeaderSize
promotes the header to 16 bytes when the 8-byte form would overflow
32 bits. -/

/-- Atom::ComputeHeaderSize: `header = 8` unless `8 + data_size` exceeds
UINT32_MAX, in which case 8 more bytes are used. -/
def computedHeaderSize (dataSize : ℕ) : ℕ :=
  if 8 + dataSize > 2 ^ 32 - 1 then 16 else 8

/-- Atom::UpdateSize: recompute `data_size` as
GetDataSizeWithoutChildren() + Σ children.size + (4 if null-terminated),
then recompute the header size. -/
def Atom.UpdateSize : Atom → Atom
  | .mk t _ d term k ch =>
      let nd := kindDataSize t d k + ch.sumSize + (if term then 4 else 0)
      .mk t (computedHeaderSize nd) nd term k ch

/-- Insert at a given index.  The C++ loop swaps the new child rightward
from `index` and then push_backs the last one, which inserts at `index`. -/
def AtomList.insertAt : ℕ → Atom → AtomList → AtomList
  | 0, c, as => .cons c as
  | _ + 1, c, .nil => .cons c .nil
  | n + 1, c, .cons a as => .cons a (as.insertAt n c)

/-- Remove the child at a given index. -/
def AtomList.removeAt : ℕ → AtomList → AtomList
  | _, .nil => .nil
  | 0, .cons _ as => as
  | n + 1, .cons a as => .cons a (as.removeAt n)

/-- The child at a given index (children_[i]). -/
def AtomList.get : ℕ → AtomList → Option Atom
  | _, .nil => none
  | 0, .cons a _ => some a
  | n + 1, .cons _ as => as.get n

/-- Atom::AddChildAt: an index outside [0, NumChildren()] logs an error
and returns with no mutation and no error to the caller; otherwise the
child is inserted at the index and Update() runs. -/
def Atom.AddChildAt (a : Atom) (child : Atom) (i : ℤ) : Atom :=
  match a with
  | .mk t h d term k ch =>
      if i < 0 ∨ i > (ch.length : ℤ) then .mk t h d term k ch
      else (Atom.mk t h d term k (ch.insertAt i.toNat child)).UpdateSize

/-- Atom::AddChild appends at the end. -/
def Atom.AddChild (a : Atom) (child : Atom) : Atom :=
  a.AddChildAt child (a.children.length : ℤ)

/-- Atom::DeleteChild: an index outside [0, NumChildren()) logs an error
and returns nullptr with no mutation; otherwise the child is removed and
returned, and Update() runs. -/
def Atom.DeleteChild (a : Atom) (i : ℤ) : Atom × Option Atom :=
  match a with
  | .mk t h d term k ch =>
      if i < 0 ∨ i ≥ (ch.length : ℤ) then (.mk t h d term k ch, none)
      else ((Atom.mk t h d term k (ch.removeAt i.toNat)).UpdateSize,
        ch.get i.toNat)

/-! ## AtomSTCO mutations (cpp/video/atoms/atom_stco.cc)

At the payload level an AtomSTCO is its type tag (which
ReviewAtomType may rewrite from "stco" to "co64") plus its STCOData. -/

/-- The type tag and payload state of an AtomSTCO. -/
structure STCOAtom where
  tag : List ℕ
  d : STCOData
  deriving Repr, DecidableEq

/-- AtomSTCO::ReviewAtomType: promote the type to "co64" when
`max_chunk_offset_ + moov_size_delta_ > UINT32_MAX` (int64 arithmetic);
there is no demotion. -/
def STCOAtom.ReviewAtomType (s : STCOAtom) : STCOAtom :=
  if (s.d.max_chunk_offset : ℤ) + s.d.moov_size_delta > 2 ^ 32 - 1 then
    { s with tag := co64Tag }
  else s

/-- AtomSTCO::AdjustChunkOffsets: accumulate the adjustment into
`moov_size_delta_`, then ReviewAtomType (and Update, which does not
change the payload state). -/
def STCOAtom.AdjustChunkOffsets (s : STCOAtom) (adjustment : ℤ) : STCOAtom :=
  STCOAtom.ReviewAtomType
    { s with d := { s.d with moov_size_delta := s.d.moov_size_delta + adjustment } }

/-- An stco table as freshly read: type "stco", given offsets, zero delta,
maximum as computed by ReadDataWithoutChildren. -/
def STCOAtom.fresh (offsets : List ℕ) : STCOAtom :=
  ⟨stcoTag, ⟨0, 0, offsets, 0, offsets.foldl max 0⟩⟩

/-! ## AtomSDTP (cpp/video/atoms/atom_sdtp.cc) -/

/-- The I-frame marker byte (kIFrameDescription). -/
def kIFrameDescription : ℕ := 32

/-- The droppable-P-frame marker byte (kPFrameDescription). -/
def kPFrameDescription : ℕ := 24

/-- The loop of AtomSDTP::PopulateFromKeyFrameIndices: `m` bytes remain,
`i` is the current 0-based frame, `next` indexes the key-frame list.  The
comparison `i == indices[next] - 1` is modelled as `i + 1 = indices[next]`,
which is the same for the 1-based indices the function is used with. -/
def sdtpGo (indices : List ℕ) : ℕ → ℕ → ℕ → List ℕ
  | 0, _, _ => []
  | m + 1, i, next =>
      if i + 1 = indices.getD next 0 then
        kIFrameDescription :: sdtpGo indices m (i + 1) (next + 1)
      else
        kPFrameDescription :: sdtpGo indices m (i + 1) next

/-- AtomSDTP::PopulateFromKeyFrameIndices: one frame-description byte per
sample up to the last key-frame index (`indices.back()`). -/
def PopulateFromKeyFrameIndices (indices : List ℕ) : List ℕ :=
  sdtpGo indices (indices.getLastD 0) 0 0

/-! ## AtomELST (cpp/video/atoms/atom_elst.cc) -/

/-- AtomELST::Entry: uint64 segment duration, int64 media time, int16
media rates. -/
structure ELSTEntry where
  segment_duration : ℕ
  media_time : ℤ
  media_rate_integer : ℤ
  media_rate_fraction : ℤ
  deriving Repr, DecidableEq

/-- The C++ range of the ELSTEntry fields (uint64 / int64 / int16). -/
def ELSTEntryInRange (e : ELSTEntry) : Bool :=
  e.segment_duration < 2 ^ 64 &&
    -2 ^ 63 ≤ e.media_time && e.media_time < 2 ^ 63 &&
    -2 ^ 15 ≤ e.media_rate_integer && e.media_rate_integer < 2 ^ 15 &&
    -2 ^ 15 ≤ e.media_rate_fraction && e.media_rate_fraction < 2 ^ 15

/-- The FullAtom state and entry table of an AtomELST. -/
structure ELSTData where
  version : ℕ
  flags : ℕ
  entries : List ELSTEntry
  deriving Repr, DecidableEq

/-- AtomELST(): version 0, flags 0, no entries. -/
def ELSTInit : ELSTData := ⟨0, 0, []⟩

/-- AtomELST::AddEntry: promote the version to 1 when the segment
duration exceeds UINT32_MAX or the media time lies outside
[INT32_MIN, INT32_MAX], then append the entry (and Update). -/
def ELSTAddEntry (d : ELSTData) (e : ELSTEntry) : ELSTData :=
  { d with
    version :=
      if e.segment_duration > 2 ^ 32 - 1 ∨ e.media_time > 2 ^ 31 - 1 ∨
          e.media_time < -2 ^ 31 then 1
      else d.version,
    entries := d.entries ++ [e] }

/-- Interpret an unsigned 64-bit value as int64 (static_cast<int64_t>). -/
def toInt64 (v : ℕ) : ℤ := if v < 2 ^ 63 then (v : ℤ) else (v : ℤ) - 2 ^ 64

/-- Interpret an unsigned 16-bit value as int16 (static_cast<int16_t>). -/
def toInt16 (v : ℕ) : ℤ := if v < 2 ^ 15 then (v : ℤ) else (v : ℤ) - 2 ^ 16

/-- A signed value truncated to the low 64 bits as unsigned
(static_cast<uint64_t>). -/
def toUInt64Bits (v : ℤ) : ℕ := (v % (2 ^ 64 : ℤ)).toNat

/-- A signed value truncated to the low 16 bits as unsigned
(static_cast<uint16_t>). -/
def toUInt16Bits (v : ℤ) : ℕ := (v % (2 ^ 16 : ℤ)).toNat

/-- AtomELST::WriteDataWithoutChildren: version and flags, the entry
count, then each entry in the v1 (u64/i64) or v0 (truncated u32/u32)
layout followed by the two 16-bit rates. -/
def ELSTWriteData (d : ELSTData) : List ℕ :=
  PutUInt8 d.version ++ PutUInt24 d.flags ++ PutUInt32 d.entries.length ++
    (d.entries.flatMap fun e =>
      (if d.version = 1 then
        PutUInt64 e.segment_duration ++ PutUInt64 (toUInt64Bits e.media_time)
      else
        PutUInt32 (e.segment_duration % 2 ^ 32) ++
          PutUInt32 (toUInt64Bits e.media_time % 2 ^ 32)) ++
      PutUInt16 (toUInt16Bits e.media_rate_integer) ++
      PutUInt16 (toUInt16Bits e.media_rate_fraction))

/-- AtomELST::EntrySize: 20 bytes for version 1, 12 bytes for version 0. -/
def ELSTEntrySize (version : ℕ) : ℕ := if version = 1 then 20 else 12

/-- AtomELST::GetDataSizeWithoutChildren. -/
def ELSTDataSize (d : ELSTData) : ℕ :=
  8 + d.entries.length * ELSTEntrySize d.version

/-- The entry-reading loop of AtomELST::ReadDataWithoutChildren.  In the
v0 layout the media time is a uint32 cast straight to int64 (no sign
extension in the source). -/
def readELSTEntries (version : ℕ) : ℕ → List ℕ → Option (List ELSTEntry × List ℕ)
  | 0, bs => some ([], bs)
  | n + 1, bs => do
      let (dur, mt, r2) ←
        if version = 1 then do
          let (dur, r1) ← ReadUInt64 bs
          let (mt, r2) ← ReadUInt64 r1
          some (dur, toInt64 mt, r2)
        else do
          let (dur, r1) ← ReadUInt32 bs
          let (mt, r2) ← ReadUInt32 r1
          some (dur, (mt : ℤ), r2)
      let (ri, r3) ← ReadUInt16 r2
      let (rf, r4) ← ReadUInt16 r3
      let (es, r5) ← readELSTEntries version n r4
      some (⟨dur, mt, toInt16 ri, toInt16 rf⟩ :: es, r5)

/-- AtomELST::ReadDataWithoutChildren: version and flags, the entry count
(checked against `data_size` by CheckNumEntries), then the entries. -/
def ELSTReadData (dataSize : ℕ) (bs : List ℕ) : Option (ELSTData × List ℕ) := do
  let (version, r1) ← ReadUInt8 bs
  let (flags, r2) ← ReadUInt24 r1
  let (num, r3) ← ReadUInt32 r2
  if dataSize < 8 + num * ELSTEntrySize version then none
  else do
    let (es, r4) ← readELSTEntries version num r3
    some (⟨version, flags, es⟩, r4)

/-! ## ModifyMoov (cpp/video/modify_moov.cc)

The rewrite path reads the top-level atoms, runs the user transformer on
the moov, swaps moov before mdat when needed, and when the mdat byte
position moved adds the difference to every track's chunk-offset table;
finally all top-level atoms are serialized in order.

`FindChild`/`FindChildren` in the C++ match children by dynamic class
(`typeid`).  For registry-built trees the class is determined by the type
tag; note that atom_moov.cc registers `AtomTRAK` for the "moov" tag (the
AtomMOOV class itself is never registered), so both "trak"- and
"moov"-tagged registry atoms are `AtomTRAK` instances. -/

instance : Inhabited Atom := ⟨.mk [] 0 0 false .container .nil⟩

/-- Is this atom an AtomTRAK instance when built by the registry?  Both
"trak" (atom_trak.cc) and "moov" (atom_moov.cc) register AtomTRAK. -/
def isTrakClass (a : Atom) : Bool := a.atom_type = trakTag || a.atom_type = moovTag

/-- Is this atom an AtomSTCO instance (tags "stco" and "co64" both
register AtomSTCO, modelled as the stco kind)? -/
def isSTCOClass (a : Atom) : Bool :=
  match a.kind with
  | .stco _ => true
  | _ => false

/-- FindChild: the first child satisfying a class test, or none. -/
def AtomList.findFirst (p : Atom → Bool) : AtomList → Option Atom
  | .nil => none
  | .cons a as => if p a then some a else as.findFirst p

/-- Rewrite the first child satisfying a class test; none when no child
matches or the rewrite fails. -/
def AtomList.updateFirst (p : Atom → Bool) (f : Atom → Option Atom) :
    AtomList → Option AtomList
  | .nil => none
  | .cons a as =>
      if p a then (f a).map (.cons · as)
      else (as.updateFirst p f).map (.cons a ·)

/-- Rewrite every AtomTRAK child (the `tracks()` loop); children of other
classes are kept. -/
def AtomList.updateTracks (f : Atom → Option Atom) : AtomList → Option AtomList
  | .nil => some .nil
  | .cons a as =>
      Option.bind (if isTrakClass a then f a else some a) fun a2 =>
        Option.bind (as.updateTracks f) fun as2 => some (.cons a2 as2)

/-- Replace the children of an atom and run Atom::Update on it (the size
recomputation that insertion and deletion trigger, cascading upward as the
enclosing rebuild applies it at every level). -/
def Atom.withChildren (a : Atom) (ch : AtomList) : Atom :=
  match a with
  | .mk t h d term k _ => (Atom.mk t h d term k ch).UpdateSize

/-- AtomSTCO::AdjustChunkOffsets applied to a tree node of stco kind,
including the type rewrite of ReviewAtomType and the Update size
recomputation.  Non-stco nodes (never selected) are returned unchanged. -/
def Atom.adjustSTCO (a : Atom) (delta : ℤ) : Atom :=
  match a with
  | .mk t h d term (.stco dat) ch =>
      let s := STCOAtom.AdjustChunkOffsets ⟨t, dat⟩ delta
      (Atom.mk s.tag h d term (.stco s.d) ch).UpdateSize
  | a => a

/-- One track of AdjustTrackOffsets: follow trak → mdia → minf → stbl
(AtomTRAK::atom_stbl via FindNamedChildren), find the stbl's AtomSTCO
child, adjust it, and rebuild the chain with Update at every level.  A
missing stbl yields the "track does not contain stbl atom" error, a
missing stco the "track does not contain stco atom" error (`none`). -/
def adjustTrakOffsets (delta : ℤ) (trak : Atom) : Option Atom := do
  let ch ← trak.children.updateFirst (fun c => c.atom_type = mdiaTag) fun mdia => do
    let ch2 ← mdia.children.updateFirst (fun c => c.atom_type = minfTag) fun minf => do
      let ch3 ← minf.children.updateFirst (fun c => c.atom_type = stblTag) fun stbl => do
        let ch4 ← stbl.children.updateFirst isSTCOClass
          (fun stco => some (stco.adjustSTCO delta))
        some (stbl.withChildren ch4)
      some (minf.withChildren ch3)
    some (mdia.withChildren ch2)
  some (trak.withChildren ch)

/-- AdjustTrackOffsets: adjust every track's chunk-offset table by
`delta`. -/
def AdjustTrackOffsets (moov : Atom) (delta : ℤ) : Option Atom := do
  let ch ← moov.children.updateTracks (adjustTrakOffsets delta)
  some (moov.withChildren ch)

/-- The chunk-offset table adjustTrakOffsets rewrites inside one track:
the type tag and state of the first AtomSTCO child of the first stbl of
the first minf of the first mdia (the same traversal, read-only). -/
def trakSTCO (trak : Atom) : Option STCOAtom := do
  let mdia ← trak.children.findFirst fun c => c.atom_type = mdiaTag
  let minf ← mdia.children.findFirst fun c => c.atom_type = minfTag
  let stbl ← minf.children.findFirst fun c => c.atom_type = stblTag
  let stco ← stbl.children.findFirst isSTCOClass
  match stco.kind with
  | .stco d => some ⟨stco.atom_type, d⟩
  | _ => none

/-- GetAtomIndex: index of the first atom with the given type among the
top-level atoms (-1 in the C++, `none` here, when absent). -/
def GetAtomIndex (tag : List ℕ) : List Atom → Option ℕ
  | [] => none
  | a :: as =>
      if a.atom_type = tag then some 0 else (GetAtomIndex tag as).map (· + 1)

/-- GetAtomPosition: byte position of the first atom with the given type
among the top-level atoms (the total size when absent). -/
def GetAtomPosition : List Atom → List ℕ → ℕ
  | [], _ => 0
  | a :: as, tag => if a.atom_type = tag then 0 else a.size + GetAtomPosition as tag

/-- std::swap of two list entries. -/
def listSwap (l : List Atom) (i j : ℕ) : List Atom :=
  (l.set i (l.getD j default)).set j (l.getD i default)

/-- The rewrite path of ModifyMoov, between reading the top-level atoms
and serializing them: locate moov and mdat (both must exist), remember the
mdat position, run the transformer, swap moov before mdat if it came
after, and when the mdat position changed adjust every track's
chunk-offset table by the difference. -/
def ModifyMoovAtoms (modifier : Atom → Option Atom) (atoms : List Atom) :
    Option (List Atom) := do
  let moovIdx ← GetAtomIndex moovTag atoms
  let mdatIdx ← GetAtomIndex mdatTag atoms
  let mdatPosBefore := GetAtomPosition atoms mdatTag
  let moov ← modifier (atoms.getD moovIdx default)
  let atoms1 := atoms.set moovIdx moov
  let atoms2 := if moovIdx > mdatIdx then listSwap atoms1 moovIdx mdatIdx else atoms1
  let mdatPosAfter := GetAtomPosition atoms2 mdatTag
  let delta : ℤ := (mdatPosAfter : ℤ) - (mdatPosBefore : ℤ)
  if delta = 0 then some atoms2
  else do
    let moovIdx2 := if moovIdx > mdatIdx then mdatIdx else moovIdx
    let moov2 ← AdjustTrackOffsets (atoms2.getD moovIdx2 default) delta
    some (atoms2.set moovIdx2 moov2)

/-- The rewrite path of ModifyMoov at the byte level: transform the atom
list and serialize all top-level atoms in order. -/
def ModifyMoovOutput (modifier : Atom → Option Atom) (atoms : List Atom) :
    Option (List ℕ) := do
  let atoms2 ← ModifyMoovAtoms modifier atoms
  WriteTopLevelAtoms atoms2

/-! ## ModifyMoovInPlace (cpp/video/modify_moov.cc)

The in-place path never rewrites mdat: it produces a small set of seek-
and-write operations against the existing file.  The output is modelled
as the list of (byte position, bytes) segments in write order. -/

/-- WriteFreeSpace: a free-atom header (uint32 size, tag "free") at the
current position. -/
def WriteFreeSpace (size : ℕ) : List ℕ := PutUInt32 size ++ freeTag

/-- WriteAtomsInPlace: serialize the given atoms to memory, parse them
back (a sanity check that they reproduce the same number of atoms), and
write the re-serialized bytes at the given position. -/
def WriteAtomsInPlace (atoms : List Atom) (pos : ℕ) : Option (ℕ × List ℕ) := do
  let content ← WriteTopLevelAtoms atoms
  let memoryAtoms := ReadTopLevelAtoms (content.length + 1) content
  if memoryAtoms.length ≠ atoms.length then none
  else do
    let out ← WriteTopLevelAtoms memoryAtoms
    some (pos, out)

/-- ModifyMoovInPlace between reading the atoms and the seek/write calls.
`inputSize` is the byte size of the input file (`input->Size()`).
Cases: moov after mdat (rewrite from moov forward, capping a shrink with a
free atom); moov before mdat with exact fit, fit plus a free atom, or —
when neither fits — the new moov appended at the original end of file and
the old moov slot overwritten with a free-atom header of its size. -/
def ModifyMoovInPlaceSegments (modifier : Atom → Option Atom)
    (atoms : List Atom) (inputSize : ℕ) : Option (List (ℕ × List ℕ)) := do
  let moovIdx ← GetAtomIndex moovTag atoms
  let mdatIdx ← GetAtomIndex mdatTag atoms
  let moovPos := GetAtomPosition atoms moovTag
  let moov := atoms.getD moovIdx default
  let moovSizeBefore := moov.size
  let moov2 ← modifier moov
  let delta : ℤ := (moov2.size : ℤ) - (moovSizeBefore : ℤ)
  if moovIdx > mdatIdx then do
    let seg ← WriteAtomsInPlace ((atoms.set moovIdx moov2).drop moovIdx) moovPos
    if delta < 0 then
      some [seg, (moovPos + seg.2.length, WriteFreeSpace ((max (-delta) 8).toNat % 2 ^ 32))]
    else some [seg]
  else do
    let next := atoms.getD (moovIdx + 1) default
    let freeSpaceAfterMoov : ℤ := if next.atom_type = freeTag then next.size else 0
    if delta = freeSpaceAfterMoov then do
      let seg ← WriteAtomsInPlace [moov2] moovPos
      some [seg]
    else if delta + 8 ≤ freeSpaceAfterMoov then do
      let seg ← WriteAtomsInPlace [moov2] moovPos
      some [seg, (moovPos + seg.2.length,
        WriteFreeSpace ((freeSpaceAfterMoov - delta).toNat % 2 ^ 32))]
    else do
      let seg ← WriteAtomsInPlace [moov2] inputSize
      some [seg, (moovPos, WriteFreeSpace (moovSizeBefore % 2 ^ 32))]

/-! ## StationaryDetector (cpp/sensor_fusion/stationary_detector.cc)

The detector's own state machine (Update, ConditionTester::IsStable,
GetGyroBiasCorrection, Reset) is embedded exactly; the four IIR filter
banks and the delayed low-pass bias filter are abstracted as inputs to
each call: every Update receives the filter-bank output norms, the
settled/initialized flags and the IsInitializing flag that the C++ reads
from its filter members and timestamps at that moment.  Numbers are exact
rationals.  A comparison `v.norm() < c` on a 3-vector is modelled as
`normSq v < c^2`, which is equivalent for the nonnegative thresholds the
detector uses. -/

/-- A 3-vector over ℚ. -/
structure V3Q where
  x : ℚ
  y : ℚ
  z : ℚ
  deriving Repr, DecidableEq

/-- The zero vector (Eigen::Vector3d::Zero()). -/
def V3Q.zero : V3Q := ⟨0, 0, 0⟩

/-- Componentwise difference. -/
def V3Q.sub (a b : V3Q) : V3Q := ⟨a.x - b.x, a.y - b.y, a.z - b.z⟩

/-- Scalar multiple. -/
def V3Q.smul (c : ℚ) (a : V3Q) : V3Q := ⟨c * a.x, c * a.y, c * a.z⟩

/-- Squared Euclidean norm. -/
def V3Q.normSq (a : V3Q) : ℚ := a.x * a.x + a.y * a.y + a.z * a.z

/-- The fields of StationaryDetectorConfiguration used by the state
machine and the bias correction. -/
structure StationaryDetectorConfiguration where
  gyro_norm_threshold_rad_per_sec : ℚ
  accel_high_pass_threshold : ℚ
  gyro_high_pass_threshold : ℚ
  accel_low_pass_threshold : ℚ
  gyro_low_pass_threshold : ℚ
  max_stationary_gyro_bias_correction : ℚ
  no_exit_condition_stable_secs : ℚ
  init_no_exit_condition_stable_secs : ℚ
  convergence_condition_stable_secs : ℚ
  init_bias_correction_gain_multiplier : ℚ
  stationary_bias_correction_gain : ℚ
  deriving Repr, DecidableEq

/-- The defaults of StationaryDetectorConfiguration
(cpp/sensor_fusion/stationary_detector.h). -/
def defaultStationaryConfig : StationaryDetectorConfiguration where
  gyro_norm_threshold_rad_per_sec := 15 / 100
  accel_high_pass_threshold := 15 / 100
  gyro_high_pass_threshold := 2 / 100
  accel_low_pass_threshold := 25 / 10000
  gyro_low_pass_threshold := 1 / 1000
  max_stationary_gyro_bias_correction := 15 / 10000
  no_exit_condition_stable_secs := 10
  init_no_exit_condition_stable_secs := 1
  convergence_condition_stable_secs := 1 / 10
  init_bias_correction_gain_multiplier := 10
  stationary_bias_correction_gain := 0

/-- StationaryDetector::ConditionTester: a run counter and the timestamp
at which the current run of true conditions started. -/
structure ConditionTester where
  n_static : ℕ
  static_start_timestamp_s : ℚ
  deriving Repr, DecidableEq

/-- ConditionTester::Reset. -/
def ConditionTester.reset : ConditionTester := ⟨0, 0⟩

/-- ConditionTester::IsStable: a true condition extends the run (starting
the clock on the first one) and reports whether the run has lasted longer
than `number_of_secs`; a false condition resets the run. -/
def ConditionTester.IsStable (ct : ConditionTester) (condition : Bool)
    (timestamp_s number_of_secs : ℚ) : Bool × ConditionTester :=
  if condition then
    let n := ct.n_static + 1
    let start := if n = 1 then timestamp_s else ct.static_start_timestamp_s
    (decide (timestamp_s - start > number_of_secs), ⟨n, start⟩)
  else (false, .reset)

/-- The mutable state of the StationaryDetector state machine. -/
structure DetectorState where
  is_stationary : Bool
  is_max_correction_threshold_crossed : Bool
  has_gyro_bias_correction_converged : Bool
  exit_condition_tester : ConditionTester
  convergence_condition_tester : ConditionTester
  deriving Repr, DecidableEq

/-- The constructor state: the device is assumed non-stationary. -/
def DetectorState.init : DetectorState := ⟨false, false, false, .reset, .reset⟩

/-- StationaryDetector::Reset: non-stationary, flags cleared, the delayed
bias filter rebuilt (not part of this state), both testers reset. -/
def DetectorState.reset : DetectorState := ⟨false, false, false, .reset, .reset⟩

/-- The filter-bank outputs and flags a single Update call reads from the
detector's filter members: the high-pass and low-pass output norms, the
norm of the last gyro sample, whether all four filters have settled, and
whether the detector is in its initialization period. -/
structure UpdateIn where
  filters_ready : Bool
  accel_hp_norm : ℚ
  gyro_hp_norm : ℚ
  accel_lp_norm : ℚ
  gyro_lp_norm : ℚ
  gyro_norm : ℚ
  is_initializing : Bool
  t : ℚ
  deriving Repr, DecidableEq

/-- The exit condition: a high-pass norm or the raw gyro norm above its
threshold, or the max-correction-crossed flag. -/
def exitCondition (cfg : StationaryDetectorConfiguration) (s : DetectorState)
    (inp : UpdateIn) : Bool :=
  |inp.accel_hp_norm| > cfg.accel_high_pass_threshold ||
    |inp.gyro_hp_norm| > cfg.gyro_high_pass_threshold ||
    inp.gyro_norm > cfg.gyro_norm_threshold_rad_per_sec ||
    s.is_max_correction_threshold_crossed

/-- The entry condition: both low-pass norms below their thresholds. -/
def entryCondition (cfg : StationaryDetectorConfiguration) (inp : UpdateIn) : Bool :=
  |inp.accel_lp_norm| < cfg.accel_low_pass_threshold &&
    |inp.gyro_lp_norm| < cfg.gyro_low_pass_threshold

/-- The dwell the Update uses: the initialization dwell during the
initialization period, the standard dwell afterwards. -/
def stabilitySecs (cfg : StationaryDetectorConfiguration) (inp : UpdateIn) : ℚ :=
  if inp.is_initializing then cfg.init_no_exit_condition_stable_secs
  else cfg.no_exit_condition_stable_secs

/-- StationaryDetector::Update: skip until the filters are ready; feed the
negated exit condition to the stability tester with the dwell for the
current phase; when stationary, exit (full Reset) on the exit condition;
when non-stationary, enter when the entry condition holds and the no-exit
run is stable. -/
def DetectorUpdate (cfg : StationaryDetectorConfiguration) (s : DetectorState)
    (inp : UpdateIn) : DetectorState :=
  if !inp.filters_ready then s
  else
    let exitC := exitCondition cfg s inp
    let entryC := entryCondition cfg inp
    let r := s.exit_condition_tester.IsStable (!exitC) inp.t (stabilitySecs cfg inp)
    let s1 := { s with exit_condition_tester := r.2 }
    if s.is_stationary then
      if exitC then DetectorState.reset else s1
    else if entryC && r.1 then { s1 with is_stationary := true }
    else s1

/-- A run of Update calls from a starting state. -/
def runDetector (cfg : StationaryDetectorConfiguration) (s : DetectorState)
    (trace : List UpdateIn) : DetectorState :=
  trace.foldl (DetectorUpdate cfg) s

/-- StationaryDetector::GetGyroBiasCorrection.  `bias_available` and
`stationary_bias` abstract
`gyro_bias_delayed_low_pass_filter_.GetFilteredData`, and
`is_initializing` abstracts IsInitializing().  Returns the correction and
the updated state.  NOTE (faithful to the source): the two
`cwiseMin`/`cwiseMax` calls on lines 129-133 of stationary_detector.cc
return new expressions whose results are discarded, so no clamping is
applied to the returned correction. -/
def GetGyroBiasCorrection (cfg : StationaryDetectorConfiguration)
    (s : DetectorState) (is_initializing bias_available : Bool)
    (stationary_bias current_external_bias : V3Q) (timestamp_s : ℚ) :
    V3Q × DetectorState :=
  if !(s.is_stationary && bias_available) then (V3Q.zero, s)
  else
    let corr := current_external_bias.sub stationary_bias
    let r := s.convergence_condition_tester.IsStable
      (decide (corr.normSq < cfg.max_stationary_gyro_bias_correction ^ 2))
      timestamp_s cfg.convergence_condition_stable_secs
    let conv := s.has_gyro_bias_correction_converged || r.1
    let s1 : DetectorState :=
      { s with
        convergence_condition_tester := r.2
        has_gyro_bias_correction_converged := conv }
    if !is_initializing && conv &&
        corr.normSq > cfg.max_stationary_gyro_bias_correction ^ 2 then
      (V3Q.zero, { s1 with is_max_correction_threshold_crossed := true })
    else
      let gain := if is_initializing then
        cfg.init_bias_correction_gain_multiplier * cfg.stationary_bias_correction_gain
      else cfg.stationary_bias_correction_gain
      (V3Q.smul gain corr, s1)

/-- Clamp a scalar to [-c, c]. -/
def clampQ (c v : ℚ) : ℚ := max (-c) (min c v)

/-- Modelled from the spec: the correction the specification describes,
with each component of `ext_bias - stationary_bias` clamped to
±max_stationary_gyro_bias_correction (once past initialization) before
the gain is applied. -/
def SpecClampedCorrection (cfg : StationaryDetectorConfiguration)
    (is_initializing : Bool) (stationary_bias current_external_bias : V3Q) : V3Q :=
  let corr := current_external_bias.sub stationary_bias
  let c := cfg.max_stationary_gyro_bias_correction
  let clamped := if is_initializing then corr
    else ⟨clampQ c corr.x, clampQ c corr.y, clampQ c corr.z⟩
  let gain := if is_initializing then
    cfg.init_bias_correction_gain_multiplier * cfg.stationary_bias_correction_gain
  else cfg.stationary_bias_correction_gain
  V3Q.smul gain clamped

/-! ## QuaternionIntegrator and OrientationFilter state
(cpp/sensor_fusion/quaternion_integrator.cc,
cpp/sensor_fusion/orientation_filter.h)

The quaternion state is over ℝ (the claims speak about exact unit norms).
Components follow the source's (x, y, z, w) JPL ordering. -/

/-- A 3-vector over ℝ. -/
structure V3R where
  x : ℝ
  y : ℝ
  z : ℝ

/-- A quaternion (x, y, z, w). -/
structure QuatR where
  x : ℝ
  y : ℝ
  z : ℝ
  w : ℝ

/-- The zero 3-vector. -/
noncomputable def V3R.zero : V3R := ⟨0, 0, 0⟩

/-- The zero quaternion (only used to state nondegeneracy). -/
noncomputable def QuatR.zero : QuatR := ⟨0, 0, 0, 0⟩

/-- Componentwise sum. -/
noncomputable def QuatR.add (p q : QuatR) : QuatR := ⟨p.x + q.x, p.y + q.y, p.z + q.z, p.w + q.w⟩

/-- Scalar multiple. -/
noncomputable def QuatR.smul (c : ℝ) (q : QuatR) : QuatR := ⟨c * q.x, c * q.y, c * q.z, c * q.w⟩

/-- Componentwise negation. -/
noncomputable def QuatR.neg (q : QuatR) : QuatR := ⟨-q.x, -q.y, -q.z, -q.w⟩

/-- Squared Euclidean norm of the 4 components. -/
noncomputable def QuatR.normSq (q : QuatR) : ℝ := q.x ^ 2 + q.y ^ 2 + q.z ^ 2 + q.w ^ 2

/-- Euclidean norm of the 4 components. -/
noncomputable def QuatR.norm (q : QuatR) : ℝ := Real.sqrt q.normSq

/-- geometry_toolbox::Omega(w) applied to a quaternion (the matrix-vector
product used by the quaternion time derivative). -/
noncomputable def OmegaMul (g : V3R) (q : QuatR) : QuatR :=
  ⟨g.z * q.y - g.y * q.z + g.x * q.w,
   -g.z * q.x + g.x * q.z + g.y * q.w,
   g.y * q.x - g.x * q.y + g.z * q.w,
   -g.x * q.x - g.y * q.y - g.z * q.z⟩

/-- QuaternionIntegrator::EulerStateTransition: one Euler step
`q + Δt · ½ Ω(g_prev) q` (StateTimeDerivative at t = 0 interpolates the
gyro pair to its first sample and scales by the step). -/
noncomputable def EulerStateTransition (q : QuatR) (gyro_prev : V3R) (delta_t : ℝ) : QuatR :=
  q.add ((OmegaMul gyro_prev q).smul (delta_t * (1 / 2)))

/-- Eigen's normalize(): divide each component by the norm. -/
noncomputable def QuatR.normalize (q : QuatR) : QuatR :=
  ⟨q.x / q.norm, q.y / q.norm, q.z / q.norm, q.w / q.norm⟩

open Classical in
/-- QuaternionIntegrator::Integrate: the Euler transition, then
normalization, then the sign canonicalization making the scalar part
nonnegative. -/
noncomputable def Integrate (q : QuatR) (gyro_prev : V3R) (delta_t : ℝ) : QuatR :=
  let n := (EulerStateTransition q gyro_prev delta_t).normalize
  if n.w < 0 then n.neg else n

/-- The OrientationFilter fields SetOrientation touches: the quaternion
head of the 7-component state, the initialized flag and the first-accel
timestamp. -/
structure OrientationFilterState where
  q : QuatR
  bias : V3R
  is_orientation_initialized : Bool
  first_accel_timestamp_s : ℝ

/-- The filter state after construction: identity quaternion, zero
bias. -/
noncomputable def OrientationFilterState.start : OrientationFilterState :=
  ⟨⟨0, 0, 0, 1⟩, V3R.zero, false, 0⟩

/-- OrientationFilter::SetOrientation: replace the quaternion with the
caller's argument verbatim, mark the filter initialized, clear the
first-accel timestamp. -/
noncomputable def SetOrientation (s : OrientationFilterState) (orientation : QuatR) :
    OrientationFilterState :=
  { s with
    q := orientation
    is_orientation_initialized := true
    first_accel_timestamp_s := 0 }

/-! ## Concrete fixtures used by counterexamples and witnesses -/

/-- A detector configuration with a unit stationary-bias gain (the other
fields keep their defaults); the gain scales the returned correction. -/
def gainOneConfig : StationaryDetectorConfiguration :=
  { defaultStationaryConfig with stationary_bias_correction_gain := 1 }

/-- A detector state that is stationary with a clean tester history. -/
def stationaryState : DetectorState :=
  { DetectorState.init with is_stationary := true }

/-- A quiet Update input at time `t` with the given accel low-pass norm:
filters ready, everything else at rest, past initialization. -/
def quietStep (t lp : ℚ) : UpdateIn := ⟨true, 0, 0, lp, 0, 0, false, t⟩

/-- A 12-update trace: for eleven seconds the device is quiet (no exit
condition) but the accel low-pass norm 1 keeps the entry condition false;
at t = 11 the entry condition finally holds. -/
def noisyLpTrace : List UpdateIn :=
  ((List.range 11).map fun k => quietStep k 1) ++ [quietStep 11 0]

/-- An stco table whose single offset is 10 below the 32-bit limit. -/
def nearLimitSTCO : Atom :=
  .mk stcoTag 8 12 false (.stco ⟨0, 0, [4294967286], 0, 4294967286⟩) .nil

/-- An stbl containing only the near-limit stco. -/
def cexSTBL : Atom := .mk stblTag 8 20 false .container (.cons nearLimitSTCO .nil)

/-- A minf containing the stbl. -/
def cexMINF : Atom := .mk minfTag 8 28 false .container (.cons cexSTBL .nil)

/-- An mdia containing the minf. -/
def cexMDIA : Atom := .mk mdiaTag 8 36 false .container (.cons cexMINF .nil)

/-- A trak containing the mdia. -/
def cexTRAK : Atom := .mk trakTag 8 44 false .container (.cons cexMDIA .nil)

/-- A moov with the single track. -/
def cexMOOV : Atom := .mk moovTag 8 52 false .container (.cons cexTRAK .nil)

/-- A 12-byte mdat. -/
def cexMDAT : Atom := .mk mdatTag 8 4 false (.dflt [9, 9, 9, 9]) .nil

/-- A 16-byte free atom with an 8-byte payload. -/
def cexFREE : Atom := .mk freeTag 8 8 false (.dflt [0, 0, 0, 0, 0, 0, 0, 0]) .nil

/-- A moov transformer that appends the 16-byte free atom as a child
(growing the moov by 16 bytes). -/
def cexModifier : Atom → Option Atom := fun m => some (m.AddChild cexFREE)

/-- The top-level input of the ModifyMoov counterexample: the moov (60
bytes) followed by the mdat. -/
def cexAtoms : List Atom := [cexMOOV, cexMDAT]

/-- The result of ModifyMoovAtoms on the counterexample fixture
(`cexModifier`, `cexAtoms`), spelled out: the moov grew by the appended
16-byte free child, the mdat position difference was computed as 16, the
stco adjustment by 16 promoted the table to co64 (which grew the moov by
4 more bytes), so the final mdat position moved by 20 while the table
carries a pending write delta of only 16. -/
def cexOut : List Atom :=
  [Atom.mk moovTag 8 72 false .container
    (.cons
      (Atom.mk trakTag 8 48 false .container
        (.cons
          (Atom.mk mdiaTag 8 40 false .container
            (.cons
              (Atom.mk minfTag 8 32 false .container
                (.cons
                  (Atom.mk stblTag 8 24 false .container
                    (.cons
                      (Atom.mk co64Tag 8 16 false
                        (.stco ⟨0, 0, [4294967286], 16, 4294967286⟩) .nil)
                      .nil))
                  .nil))
              .nil))
          .nil))
      (.cons cexFREE .nil)),
   cexMDAT]

/-- A constant moov replacement used to instantiate the C3 theorem: the
counterexample moov with the free child already appended. -/
def w3Moov : Atom := cexMOOV.AddChild cexFREE

/-- In-place fixture: an empty free leaf appended into the moov. -/
def w6Child : Atom := Atom.mk freeTag 8 0 false (.dflt []) .nil

/-- In-place fixture: an empty moov container. -/
def w6Moov : Atom := Atom.mk moovTag 8 0 false .container .nil

/-- In-place fixture: the transformed moov (8 bytes larger). -/
def w6Moov2 : Atom := w6Moov.AddChild w6Child

/-- In-place fixture: a 12-byte mdat. -/
def w6Mdat : Atom := Atom.mk mdatTag 8 4 false (.dflt [1, 2, 3, 4]) .nil

/-- In-place fixture: moov followed by mdat (20 bytes of file). -/
def w6Atoms : List Atom := [w6Moov, w6Mdat]

/-- The serialization of the transformed in-place fixture moov. -/
def w6Bytes : List ℕ :=
  [0, 0, 0, 16, 109, 111, 111, 118, 0, 0, 0, 8, 102, 114, 101, 101]

/-- A default Update input (used only as the `getD` fallback). -/
def dummyIn : UpdateIn := ⟨false, 0, 0, 0, 0, 0, false, 0⟩

/-- The no-exit condition held at every filter-ready update from index `j`
on: at each such update the exit condition (evaluated in the detector
state reached at that point) is false. -/
def noExitRunFrom (cfg : StationaryDetectorConfiguration) (trace : List UpdateIn)
    (j : ℕ) : Prop :=
  ∀ k, j ≤ k → k < trace.length → (trace.getD k dummyIn).filters_ready = true →
    exitCondition cfg (runDetector cfg DetectorState.init (trace.take k))
      (trace.getD k dummyIn) = false

/-! # Theorems -/

/-! ## Byte-primitive lemmas -/

theorem ReadUInt32_PutUInt32 (v : ℕ) (rest : List ℕ) :
    ReadUInt32 (PutUInt32 v ++ rest) = some (v % 2 ^ 32, rest) := by
  simp only [PutUInt32, ReadUInt32, List.cons_append, List.nil_append]
  refine congrArg some (Prod.ext ?_ rfl)
  omega

theorem ReadUInt64_PutUInt64 (v : ℕ) (rest : List ℕ) :
    ReadUInt64 (PutUInt64 v ++ rest) = some (v % 2 ^ 64, rest) := by
  simp only [PutUInt64, ReadUInt64, List.cons_append, List.nil_append]
  refine congrArg some (Prod.ext ?_ rfl)
  omega

theorem ReadUInt8_PutUInt8 (v : ℕ) (rest : List ℕ) :
    ReadUInt8 (PutUInt8 v ++ rest) = some (v % 2 ^ 8, rest) := rfl

theorem ReadUInt16_PutUInt16 (v : ℕ) (rest : List ℕ) :
    ReadUInt16 (PutUInt16 v ++ rest) = some (v % 2 ^ 16, rest) := by
  simp only [PutUInt16, ReadUInt16, List.cons_append, List.nil_append]
  refine congrArg some (Prod.ext ?_ rfl)
  omega

theorem ReadUInt24_PutUInt24 (v : ℕ) (rest : List ℕ) :
    ReadUInt24 (PutUInt24 v ++ rest) = some (v % 2 ^ 24, rest) := by
  simp only [PutUInt24, ReadUInt24, List.cons_append, List.nil_append]
  refine congrArg some (Prod.ext ?_ rfl)
  omega

theorem ReadTag_append (b0 b1 b2 b3 : ℕ) (rest : List ℕ) :
    ReadTag ([b0, b1, b2, b3] ++ rest) = some ([b0, b1, b2, b3], rest) := rfl

theorem PutUInt32_length (v : ℕ) : (PutUInt32 v).length = 4 := rfl

theorem PutUInt64_length (v : ℕ) : (PutUInt64 v).length = 8 := rfl

/-! ## Claim C10: out-of-bounds child operations -/

/-- Claim C10: for every Atom, AddChildAt with an index outside
[0, NumChildren()] and DeleteChild with an index outside
[0, NumChildren()) leave the atom completely unchanged — same children,
same data_size, same header_size — with AddChildAt dropping the insertion
and DeleteChild returning null; neither signals an error to the caller
(both log and return normally, which the model expresses by returning a
value rather than an error). -/
theorem addChildAt_deleteChild_out_of_bounds (a child : Atom) (i j : ℤ)
    (hi : i < 0 ∨ i > (a.children.length : ℤ))
    (hj : j < 0 ∨ j ≥ (a.children.length : ℤ)) :
    a.AddChildAt child i = a ∧ a.DeleteChild j = (a, none) := by
  obtain ⟨t, h, d, term, k, ch⟩ := a
  constructor
  · simp only [Atom.AddChildAt, Atom.children] at hi ⊢
    exact if_pos hi
  · simp only [Atom.DeleteChild, Atom.children] at hj ⊢
    exact if_pos hj

/-- Witness for C10 at a concrete atom: the 20-byte stbl fixture with one
child, probed at индices -1 and 5. -/
theorem addChildAt_deleteChild_out_of_bounds_witness :
    ((-1 : ℤ) < 0 ∨ (-1 : ℤ) > ((cexSTBL.children.length : ℕ) : ℤ)) ∧
    ((5 : ℤ) < 0 ∨ (5 : ℤ) ≥ ((cexSTBL.children.length : ℕ) : ℤ)) ∧
    cexSTBL.AddChildAt cexFREE (-1) = cexSTBL ∧
    cexSTBL.DeleteChild 5 = (cexSTBL, none) := by
  refine ⟨by decide, by decide, ?_⟩
  have h := addChildAt_deleteChild_out_of_bounds cexSTBL cexFREE (-1) 5
    (by decide) (by decide)
  exact h

/-! ## Claim C5: stco promotion and write behaviour -/

/-- Adjusting changes only `moov_size_delta` in the payload state. -/
theorem adjust_d_eq (s : STCOAtom) (x : ℤ) :
    (s.AdjustChunkOffsets x).d =
      { s.d with moov_size_delta := s.d.moov_size_delta + x } := by
  simp only [STCOAtom.AdjustChunkOffsets, STCOAtom.ReviewAtomType]
  split <;> rfl

/-- Adjusting promotes the tag to "co64" exactly when it already was
"co64" or the new accumulated delta drives the maximum over the 32-bit
limit. -/
theorem adjust_tag_eq (s : STCOAtom) (x : ℤ) :
    (s.AdjustChunkOffsets x).tag =
      if (s.d.max_chunk_offset : ℤ) + (s.d.moov_size_delta + x) > 2 ^ 32 - 1
      then co64Tag else s.tag := by
  simp only [STCOAtom.AdjustChunkOffsets, STCOAtom.ReviewAtomType]
  split
  · rfl
  · rfl

/-- Payload state after a sequence of adjustments: only the delta moves,
by the sum of the adjustments. -/
theorem foldl_adjust_d (ds : List ℤ) (s : STCOAtom) :
    (ds.foldl STCOAtom.AdjustChunkOffsets s).d =
      { s.d with moov_size_delta := s.d.moov_size_delta + ds.sum } := by
  induction ds generalizing s with
  | nil => simp
  | cons x xs ih =>
      simp only [List.foldl_cons, List.sum_cons, ih, adjust_d_eq]
      congr 1
      ring

/-- Tag after a sequence of adjustments: "co64" exactly when the tag
already was "co64" or some nonempty prefix of the adjustments drives
`max_chunk_offset + delta` over the 32-bit limit. -/
theorem foldl_adjust_tag (ds : List ℤ) (s : STCOAtom) :
    ((ds.foldl STCOAtom.AdjustChunkOffsets s).tag = co64Tag ↔
      s.tag = co64Tag ∨ ∃ k, 1 ≤ k ∧ k ≤ ds.length ∧
        (s.d.max_chunk_offset : ℤ) + s.d.moov_size_delta +
          (ds.take k).sum > 2 ^ 32 - 1) := by
  induction ds generalizing s with
  | nil =>
      simp only [List.foldl_nil, List.length_nil]
      constructor
      · exact fun h => Or.inl h
      · rintro (h | ⟨k, hk1, hk2, _⟩)
        · exact h
        · omega
  | cons x xs ih =>
      simp only [List.foldl_cons]
      rw [ih, adjust_d_eq, adjust_tag_eq]
      simp only [List.length_cons]
      constructor
      · rintro (h | ⟨k, hk1, hk2, hgt⟩)
        · by_cases hc : (s.d.max_chunk_offset : ℤ) + (s.d.moov_size_delta + x) > 2 ^ 32 - 1
          · refine Or.inr ⟨1, le_refl 1, by omega, ?_⟩
            simp only [List.take_succ_cons, List.take_zero, List.sum_cons,
              List.sum_nil, add_zero]
            omega
          · rw [if_neg hc] at h
            exact Or.inl h
        · refine Or.inr ⟨k + 1, by omega, by omega, ?_⟩
          simp only [List.take_succ_cons, List.sum_cons]
          omega
      · rintro (h | ⟨k, hk1, hk2, hgt⟩)
        · left
          split
          · rfl
          · exact h
        · match k, hk1 with
          | 1, _ =>
              left
              simp only [List.take_succ_cons, List.take_zero, List.sum_cons,
                List.sum_nil, add_zero] at hgt
              rw [if_pos (by omega)]
          | k + 2, _ =>
              right
              refine ⟨k + 1, by omega, by omega, ?_⟩
              simp only [List.take_succ_cons, List.sum_cons] at hgt
              omega

/-- Counterexample to claim C5 as stated: starting from a freshly read
stco table with single offset 100, adjusting by +2^32 and then by -2^32
accumulates delta 0 — so `max_chunk_offset + delta` does not exceed
2^32 - 1 — yet the atom's type is "co64": promotion is one-way, so "co64
exactly when max + delta exceeds the limit" fails. -/
theorem stco_promotion_not_reversible :
    (((STCOAtom.fresh [100]).AdjustChunkOffsets (2 ^ 32)).AdjustChunkOffsets
        (-(2 ^ 32))).tag = co64Tag ∧
    (((STCOAtom.fresh [100]).AdjustChunkOffsets (2 ^ 32)).AdjustChunkOffsets
        (-(2 ^ 32))).d.moov_size_delta = 0 ∧
    ¬((((STCOAtom.fresh [100]).AdjustChunkOffsets (2 ^ 32)).AdjustChunkOffsets
        (-(2 ^ 32))).d.max_chunk_offset : ℤ) + 0 > 2 ^ 32 - 1 := by
  refine ⟨by decide, by decide, by decide⟩

/-- Claim C5 as amended: after a sequence of AdjustChunkOffsets calls on a
freshly read stco table, the type is "co64" exactly when some nonempty
prefix of the adjustments drove `max_chunk_offset + delta` over 2^32 - 1
(promotion is sticky: later adjustments never demote the type), and
WriteDataWithoutChildren emits each stored offset increased by the
accumulated delta — 32-bit entries while the type is "stco", 64-bit
entries for "co64", truncated to the entry width. -/
theorem stco_adjust_write_spec (offsets : List ℕ) (ds : List ℤ) :
    ((ds.foldl STCOAtom.AdjustChunkOffsets (STCOAtom.fresh offsets)).tag = co64Tag ↔
      ∃ k, 1 ≤ k ∧ k ≤ ds.length ∧
        ((offsets.foldl max 0 : ℕ) : ℤ) + (ds.take k).sum > 2 ^ 32 - 1) ∧
    (ds.foldl STCOAtom.AdjustChunkOffsets (STCOAtom.fresh offsets)).d.chunk_offsets
      = offsets ∧
    (ds.foldl STCOAtom.AdjustChunkOffsets (STCOAtom.fresh offsets)).d.moov_size_delta
      = ds.sum ∧
    STCOWriteData (ds.foldl STCOAtom.AdjustChunkOffsets (STCOAtom.fresh offsets)).tag
        (ds.foldl STCOAtom.AdjustChunkOffsets (STCOAtom.fresh offsets)).d =
      PutUInt8 0 ++ PutUInt24 0 ++ PutUInt32 offsets.length ++
        offsets.flatMap (fun o =>
          if (ds.foldl STCOAtom.AdjustChunkOffsets (STCOAtom.fresh offsets)).tag
              = stcoTag
          then PutUInt32 (stcoWrittenOffset o ds.sum)
          else PutUInt64 (stcoWrittenOffset o ds.sum)) := by
  have hd := foldl_adjust_d ds (STCOAtom.fresh offsets)
  have ht := foldl_adjust_tag ds (STCOAtom.fresh offsets)
  have hfresh : (STCOAtom.fresh offsets).tag = stcoTag := rfl
  have hne : ¬(stcoTag = co64Tag) := by decide
  refine ⟨?_, ?_, ?_, ?_⟩
  · rw [ht, hfresh]
    simp only [hne, false_or]
    exact Iff.rfl
  · rw [hd]
    rfl
  · rw [hd]
    simp [STCOAtom.fresh]
  · rw [STCOWriteData, hd]
    simp [STCOAtom.fresh, stcoWrittenOffset]

/-! ## Claim C2: the gyro-bias correction is not clamped -/

/-- Claim C2 evaluated at a failing input (code bug): with a stationary
detector, an available bias estimate of zero, external bias
(0.01, 0, 0), unit gain and past initialization, GetGyroBiasCorrection
returns the unclamped gain·(ext_bias − stationary_bias) = (0.01, 0, 0),
whereas the claimed per-component clamping to ±0.0015 would give
(0.0015, 0, 0): the `cwiseMin`/`cwiseMax` calls in the source discard
their results, so no clamping happens. -/
theorem gyro_bias_correction_unclamped :
    (GetGyroBiasCorrection gainOneConfig stationaryState false true V3Q.zero
        ⟨1 / 100, 0, 0⟩ 0).1 = ⟨1 / 100, 0, 0⟩ ∧
    SpecClampedCorrection gainOneConfig false V3Q.zero ⟨1 / 100, 0, 0⟩ =
      ⟨3 / 2000, 0, 0⟩ ∧
    (⟨1 / 100, 0, 0⟩ : V3Q) ≠ ⟨3 / 2000, 0, 0⟩ := by
  refine ⟨?_, ?_, ?_⟩
  · norm_num [GetGyroBiasCorrection, gainOneConfig, stationaryState,
      defaultStationaryConfig, DetectorState.init, V3Q.zero, V3Q.sub, V3Q.normSq,
      V3Q.smul, ConditionTester.IsStable, ConditionTester.reset]
  · norm_num [SpecClampedCorrection, clampQ, gainOneConfig,
      defaultStationaryConfig, V3Q.zero, V3Q.sub, V3Q.smul]
  · simp only [ne_eq, V3Q.mk.injEq, not_and]
    intro h
    norm_num at h

/-! ## Claim C7: how the detector enters the stationary state -/

theorem runDetector_append (cfg : StationaryDetectorConfiguration)
    (s : DetectorState) (xs : List UpdateIn) (x : UpdateIn) :
    runDetector cfg s (xs ++ [x]) = DetectorUpdate cfg (runDetector cfg s xs) x := by
  simp [runDetector]

theorem DetectorUpdate_not_ready (cfg : StationaryDetectorConfiguration)
    (s : DetectorState) (inp : UpdateIn) (h : inp.filters_ready = false) :
    DetectorUpdate cfg s inp = s := by
  simp [DetectorUpdate, h]

/-- When the exit condition holds at a ready update, the stability tester
is reset (either directly by IsStable or by the full detector Reset). -/
theorem DetectorUpdate_tester_exit (cfg : StationaryDetectorConfiguration)
    (s : DetectorState) (inp : UpdateIn) (hready : inp.filters_ready = true)
    (hexit : exitCondition cfg s inp = true) :
    (DetectorUpdate cfg s inp).exit_condition_tester = ConditionTester.reset := by
  simp only [DetectorUpdate, hready, Bool.not_true, Bool.false_eq_true,
    if_false, hexit, ConditionTester.IsStable, if_true]
  split
  · rfl
  · simp [ConditionTester.IsStable]

/-- When the exit condition fails at a ready update, the stability tester
extends its run (starting the clock on the first update of the run)
regardless of the branch taken. -/
theorem DetectorUpdate_tester_no_exit (cfg : StationaryDetectorConfiguration)
    (s : DetectorState) (inp : UpdateIn) (hready : inp.filters_ready = true)
    (hexit : exitCondition cfg s inp = false) :
    (DetectorUpdate cfg s inp).exit_condition_tester =
      ⟨s.exit_condition_tester.n_static + 1,
       if s.exit_condition_tester.n_static + 1 = 1 then inp.t
       else s.exit_condition_tester.static_start_timestamp_s⟩ := by
  simp only [DetectorUpdate, hready, Bool.not_true, Bool.false_eq_true,
    if_false, hexit, Bool.not_false, ConditionTester.IsStable, if_true]
  repeat' split
  all_goals rfl

/-- The stationary flag can only become true at a ready update, in the
non-stationary branch, when the entry condition holds, the exit condition
fails, and the no-exit run (including this update) has lasted longer than
the dwell. -/
theorem DetectorUpdate_enter (cfg : StationaryDetectorConfiguration)
    (s : DetectorState) (inp : UpdateIn) (hpre : s.is_stationary = false)
    (hpost : (DetectorUpdate cfg s inp).is_stationary = true) :
    inp.filters_ready = true ∧ entryCondition cfg inp = true ∧
      exitCondition cfg s inp = false ∧
      inp.t - (if s.exit_condition_tester.n_static + 1 = 1 then inp.t
          else s.exit_condition_tester.static_start_timestamp_s) >
        stabilitySecs cfg inp := by
  by_cases hready : inp.filters_ready = true
  case neg =>
    rw [DetectorUpdate_not_ready cfg s inp (by simpa using hready)] at hpost
    rw [hpre] at hpost
    exact absurd hpost (by simp)
  case pos =>
    simp only [DetectorUpdate, hready, Bool.not_true, Bool.false_eq_true,
      if_false, hpre] at hpost
    by_cases hexit : exitCondition cfg s inp = true
    · rw [hexit] at hpost
      simp only [ConditionTester.IsStable, Bool.not_true, Bool.false_eq_true,
        if_false, Bool.and_false] at hpost
    · rw [Bool.not_eq_true] at hexit
      rw [hexit] at hpost
      simp only [ConditionTester.IsStable, Bool.not_false, if_true] at hpost
      by_cases hentry : entryCondition cfg inp = true
      · rw [hentry] at hpost
        simp only [Bool.true_and] at hpost
        by_cases hstable :
            decide (inp.t - (if s.exit_condition_tester.n_static + 1 = 1 then inp.t
              else s.exit_condition_tester.static_start_timestamp_s) >
                stabilitySecs cfg inp) = true
        · exact ⟨hready, hentry, hexit, of_decide_eq_true hstable⟩
        · rw [Bool.not_eq_true] at hstable
          rw [hstable] at hpost
          simp only [Bool.false_eq_true, if_false] at hpost
      · rw [Bool.not_eq_true] at hentry
        rw [hentry] at hpost
        simp only [Bool.false_and, Bool.false_eq_true, if_false] at hpost

/-- Tester invariant: whenever the stability tester's run counter is
positive after a run of updates, the run started at a ready update whose
timestamp the tester recorded, and the exit condition has been false at
every ready update since. -/
theorem detector_tester_invariant (cfg : StationaryDetectorConfiguration)
    (trace : List UpdateIn)
    (hn : 0 < (runDetector cfg DetectorState.init trace).exit_condition_tester.n_static) :
    ∃ j, j < trace.length ∧ (trace.getD j dummyIn).filters_ready = true ∧
      (runDetector cfg DetectorState.init
          trace).exit_condition_tester.static_start_timestamp_s =
        (trace.getD j dummyIn).t ∧
      noExitRunFrom cfg trace j := by
  induction trace using List.reverseRecOn with
  | nil =>
      simp [runDetector, DetectorState.init, ConditionTester.reset] at hn
  | append_singleton xs x ih =>
      rw [runDetector_append] at hn ⊢
      by_cases hready : x.filters_ready = true
      case neg =>
        rw [Bool.not_eq_true] at hready
        rw [DetectorUpdate_not_ready cfg _ x hready] at hn ⊢
        obtain ⟨j, hj, hjr, hjs, hjrun⟩ := ih hn
        refine ⟨j, ?_, ?_, ?_, ?_⟩
        · simp only [List.length_append, List.length_singleton]
          omega
        · rwa [List.getD_append _ _ _ _ hj]
        · rwa [List.getD_append _ _ _ _ hj]
        · intro k hk1 hk2 hk3
          simp only [List.length_append, List.length_singleton] at hk2
          by_cases hklt : k < xs.length
          · rw [List.getD_append _ _ _ _ hklt] at hk3 ⊢
            rw [List.take_append_of_le_length (le_of_lt hklt)]
            exact hjrun k hk1 hklt hk3
          · have hk : k = xs.length := by omega
            subst hk
            rw [List.getD_append_right _ _ _ _ (le_refl _), Nat.sub_self] at hk3
            simp only [List.getD_cons_zero] at hk3
            rw [hready] at hk3
            exact absurd hk3 (by simp)
      case pos =>
        by_cases hexit :
            exitCondition cfg (runDetector cfg DetectorState.init xs) x = true
        · rw [DetectorUpdate_tester_exit cfg _ x hready hexit] at hn
          simp [ConditionTester.reset] at hn
        · rw [Bool.not_eq_true] at hexit
          have htester := DetectorUpdate_tester_no_exit cfg
            (runDetector cfg DetectorState.init xs) x hready hexit
          rw [htester]
          by_cases hzero :
              (runDetector cfg DetectorState.init xs).exit_condition_tester.n_static = 0
          · refine ⟨xs.length, ?_, ?_, ?_, ?_⟩
            · simp
            · rw [List.getD_append_right _ _ _ _ (le_refl _), Nat.sub_self]
              simpa using hready
            · rw [List.getD_append_right _ _ _ _ (le_refl _), Nat.sub_self]
              simp [hzero]
            · intro k hk1 hk2 hk3
              simp only [List.length_append, List.length_singleton] at hk2
              have hk : k = xs.length := by omega
              subst hk
              rw [List.getD_append_right _ _ _ _ (le_refl _), Nat.sub_self] at hk3 ⊢
              simp only [List.getD_cons_zero] at hk3 ⊢
              rw [List.take_append_of_le_length (le_refl _), List.take_length]
              exact hexit
          · obtain ⟨j, hj, hjr, hjs, hjrun⟩ := ih (by omega)
            refine ⟨j, ?_, ?_, ?_, ?_⟩
            · simp only [List.length_append, List.length_singleton]
              omega
            · rwa [List.getD_append _ _ _ _ hj]
            · rw [List.getD_append _ _ _ _ hj]
              simp only [if_neg (by omega :
                ¬(runDetector cfg DetectorState.init
                    xs).exit_condition_tester.n_static + 1 = 1)]
              exact hjs
            · intro k hk1 hk2 hk3
              simp only [List.length_append, List.length_singleton] at hk2
              by_cases hklt : k < xs.length
              · rw [List.getD_append _ _ _ _ hklt] at hk3 ⊢
                rw [List.take_append_of_le_length (le_of_lt hklt)]
                exact hjrun k hk1 hklt hk3
              · have hk : k = xs.length := by omega
                subst hk
                rw [List.getD_append_right _ _ _ _ (le_refl _), Nat.sub_self] at hk3 ⊢
                simp only [List.getD_cons_zero] at hk3 ⊢
                rw [List.take_append_of_le_length (le_refl _), List.take_length]
                exact hexit

/-- Counterexample to claim C7 as stated: in a 12-update run the detector
becomes stationary at the t = 11 update although the entry condition was
false at the t = 10 update, one second earlier and well inside the 10 s
dwell — the entry condition did not hold continuously for the dwell.  (It
is the negated exit condition whose run must be stable, and it held
throughout.) -/
theorem stationary_entry_without_continuous_entry_condition :
    (runDetector defaultStationaryConfig DetectorState.init
        (noisyLpTrace.take 11)).is_stationary = false ∧
    (runDetector defaultStationaryConfig DetectorState.init
        noisyLpTrace).is_stationary = true ∧
    entryCondition defaultStationaryConfig (noisyLpTrace.getD 10 dummyIn) = false ∧
    (noisyLpTrace.getD 11 dummyIn).t - (noisyLpTrace.getD 10 dummyIn).t ≤
      defaultStationaryConfig.no_exit_condition_stable_secs ∧
    (noisyLpTrace.getD 11 dummyIn).is_initializing = false := by
  refine ⟨?_, ?_, ?_, ?_, ?_⟩ <;>
    norm_num [runDetector, noisyLpTrace, quietStep, List.range_succ,
      DetectorUpdate, entryCondition, exitCondition, ConditionTester.IsStable,
      ConditionTester.reset, DetectorState.reset, defaultStationaryConfig,
      DetectorState.init, stabilitySecs, dummyIn]

/-- Claim C7 as amended: the detector starts non-stationary, and (for
nonnegative dwells) IsStationary() becomes true only at a filter-ready
update where the entry condition (‖LP_accel‖ < 0.0025 ∧ ‖LP_gyro‖ <
0.001) holds, the exit condition is false, and the NO-EXIT condition —
not the entry condition — has held at every filter-ready update since
some update more than the configured dwell before the current time
(no_exit_condition_stable_secs, default 10 s; 1 s during the
initialization period). -/
theorem stationary_entry_requires_no_exit_run :
    DetectorState.init.is_stationary = false ∧
    ∀ (cfg : StationaryDetectorConfiguration) (trace : List UpdateIn)
      (inp : UpdateIn),
      0 ≤ cfg.no_exit_condition_stable_secs →
      0 ≤ cfg.init_no_exit_condition_stable_secs →
      (runDetector cfg DetectorState.init trace).is_stationary = false →
      (runDetector cfg DetectorState.init (trace ++ [inp])).is_stationary = true →
      inp.filters_ready = true ∧ entryCondition cfg inp = true ∧
        exitCondition cfg (runDetector cfg DetectorState.init trace) inp = false ∧
        ∃ j, j < trace.length ∧ (trace.getD j dummyIn).filters_ready = true ∧
          inp.t - (trace.getD j dummyIn).t > stabilitySecs cfg inp ∧
          noExitRunFrom cfg trace j := by
  refine ⟨rfl, ?_⟩
  intro cfg trace inp h1 h2 hpre hpost
  rw [runDetector_append] at hpost
  obtain ⟨hready, hentry, hexit, hstable⟩ := DetectorUpdate_enter cfg _ inp hpre hpost
  by_cases hzero :
      (runDetector cfg DetectorState.init trace).exit_condition_tester.n_static = 0
  · rw [if_pos (by omega)] at hstable
    have h0 : (0 : ℚ) > stabilitySecs cfg inp := by
      simpa using hstable
    unfold stabilitySecs at h0
    split at h0 <;> linarith
  · rw [if_neg (by omega)] at hstable
    obtain ⟨j, hj, hjr, hjs, hjrun⟩ :=
      detector_tester_invariant cfg trace (by omega)
    exact ⟨hready, hentry, hexit, j, hj, hjr, by rwa [← hjs], hjrun⟩

/-- Witness for the amended C7 at a concrete run: the 11-step noisy-LP
prefix followed by the quiet t = 11 update. -/
theorem stationary_entry_requires_no_exit_run_witness :
    (runDetector defaultStationaryConfig DetectorState.init
        (noisyLpTrace.take 11)).is_stationary = false ∧
    (runDetector defaultStationaryConfig DetectorState.init
        (noisyLpTrace.take 11 ++ [quietStep 11 0])).is_stationary = true ∧
    ((quietStep 11 0).filters_ready = true ∧
      entryCondition defaultStationaryConfig (quietStep 11 0) = true ∧
      exitCondition defaultStationaryConfig
        (runDetector defaultStationaryConfig DetectorState.init
          (noisyLpTrace.take 11)) (quietStep 11 0) = false ∧
      ∃ j, j < (noisyLpTrace.take 11).length ∧
        ((noisyLpTrace.take 11).getD j dummyIn).filters_ready = true ∧
        (quietStep 11 0).t - ((noisyLpTrace.take 11).getD j dummyIn).t >
          stabilitySecs defaultStationaryConfig (quietStep 11 0) ∧
        noExitRunFrom defaultStationaryConfig (noisyLpTrace.take 11) j) := by
  have htr : noisyLpTrace.take 11 ++ [quietStep 11 0] = noisyLpTrace := by
    simp [noisyLpTrace, List.range_succ]
  have hpre : (runDetector defaultStationaryConfig DetectorState.init
      (noisyLpTrace.take 11)).is_stationary = false := by
    norm_num [runDetector, noisyLpTrace, quietStep, List.range_succ,
      DetectorUpdate, entryCondition, exitCondition, ConditionTester.IsStable,
      ConditionTester.reset, DetectorState.reset, defaultStationaryConfig,
      DetectorState.init, stabilitySecs]
  have hpost : (runDetector defaultStationaryConfig DetectorState.init
      (noisyLpTrace.take 11 ++ [quietStep 11 0])).is_stationary = true := by
    rw [htr]
    norm_num [runDetector, noisyLpTrace, quietStep, List.range_succ,
      DetectorUpdate, entryCondition, exitCondition, ConditionTester.IsStable,
      ConditionTester.reset, DetectorState.reset, defaultStationaryConfig,
      DetectorState.init, stabilitySecs]
  exact ⟨hpre, hpost,
    stationary_entry_requires_no_exit_run.2 defaultStationaryConfig
      (noisyLpTrace.take 11) (quietStep 11 0)
      (by norm_num [defaultStationaryConfig])
      (by norm_num [defaultStationaryConfig]) hpre hpost⟩

/-! ## Claim C4: the quaternion invariant -/

theorem QuatR.normSq_nonneg (q : QuatR) : 0 ≤ q.normSq := by
  unfold QuatR.normSq
  positivity

theorem QuatR.normSq_pos_of_ne_zero (q : QuatR) (h : q ≠ QuatR.zero) :
    0 < q.normSq := by
  rcases lt_or_eq_of_le q.normSq_nonneg with hlt | heq
  · exact hlt
  · exfalso
    apply h
    obtain ⟨x, y, z, w⟩ := q
    simp only [QuatR.normSq] at heq
    have hx : x = 0 := by nlinarith [sq_nonneg x, sq_nonneg y, sq_nonneg z, sq_nonneg w]
    have hy : y = 0 := by nlinarith [sq_nonneg x, sq_nonneg y, sq_nonneg z, sq_nonneg w]
    have hz : z = 0 := by nlinarith [sq_nonneg x, sq_nonneg y, sq_nonneg z, sq_nonneg w]
    have hw : w = 0 := by nlinarith [sq_nonneg x, sq_nonneg y, sq_nonneg z, sq_nonneg w]
    simp [QuatR.zero, hx, hy, hz, hw]

theorem QuatR.normSq_neg (q : QuatR) : q.neg.normSq = q.normSq := by
  obtain ⟨x, y, z, w⟩ := q
  simp only [QuatR.neg, QuatR.normSq]
  ring

theorem QuatR.norm_neg (q : QuatR) : q.neg.norm = q.norm := by
  rw [QuatR.norm, QuatR.norm, QuatR.normSq_neg]

/-- Eigen's normalize() yields a unit vector whenever its input is not
the zero quaternion. -/
theorem QuatR.norm_normalize (q : QuatR) (h : q ≠ QuatR.zero) :
    q.normalize.norm = 1 := by
  have h0 : 0 < q.normSq := q.normSq_pos_of_ne_zero h
  have hnpos : 0 < q.norm := Real.sqrt_pos.mpr h0
  have hsq : q.norm ^ 2 = q.normSq := Real.sq_sqrt (le_of_lt h0)
  have h1 : q.normalize.normSq = 1 := by
    have hexp : q.normalize.normSq = q.normSq / q.norm ^ 2 := by
      obtain ⟨x, y, z, w⟩ := q
      simp only [QuatR.normalize, QuatR.normSq]
      ring
    rw [hexp, hsq, div_self (ne_of_gt h0)]
  rw [QuatR.norm, h1, Real.sqrt_one]

/-- Counterexample to claim C4 as stated: SetOrientation stores the
caller's quaternion verbatim, so after SetOrientation((0,0,0,-2)) the
filter quaternion has a negative scalar part and squared norm 4 ≠ 1 —
the invariant does not hold after this public state-updating operation. -/
theorem setOrientation_breaks_unit_invariant :
    (SetOrientation OrientationFilterState.start ⟨0, 0, 0, -2⟩).q.w < 0 ∧
    (SetOrientation OrientationFilterState.start ⟨0, 0, 0, -2⟩).q.normSq ≠ 1 := by
  constructor
  · show (-2 : ℝ) < 0
    norm_num
  · show ((0 : ℝ) ^ 2 + 0 ^ 2 + 0 ^ 2 + (-2) ^ 2) ≠ 1
    norm_num

/-- Claim C4 as amended: the propagation step
(QuaternionIntegrator::Integrate) renormalizes the quaternion and makes
its scalar part nonnegative, so ‖q‖ = 1 and q.w ≥ 0 hold after every
propagation whose Euler update is nonzero (exact arithmetic);
SetOrientation, however, stores the caller's quaternion verbatim, so
after SetOrientation the invariant holds only if the argument already
satisfies it. -/
theorem integrate_enforces_invariant_setOrientation_does_not :
    (∀ (q : QuatR) (g : V3R) (dt : ℝ),
        EulerStateTransition q g dt ≠ QuatR.zero →
        (Integrate q g dt).norm = 1 ∧ 0 ≤ (Integrate q g dt).w) ∧
    (∀ (s : OrientationFilterState) (o : QuatR), (SetOrientation s o).q = o) := by
  constructor
  · intro q g dt h
    unfold Integrate
    by_cases hw : (EulerStateTransition q g dt).normalize.w < 0
    · rw [if_pos hw]
      exact ⟨by rw [QuatR.norm_neg]; exact QuatR.norm_normalize _ h, by
        show 0 ≤ -(EulerStateTransition q g dt).normalize.w
        linarith⟩
    · rw [if_neg hw]
      exact ⟨QuatR.norm_normalize _ h, le_of_not_lt hw⟩
  · intro s o
    rfl

/-- Witness for the amended C4 at the identity quaternion with zero gyro
over a unit step. -/
theorem integrate_enforces_invariant_witness :
    EulerStateTransition ⟨0, 0, 0, 1⟩ V3R.zero 1 ≠ QuatR.zero ∧
    ((Integrate ⟨0, 0, 0, 1⟩ V3R.zero 1).norm = 1 ∧
      0 ≤ (Integrate ⟨0, 0, 0, 1⟩ V3R.zero 1).w) := by
  have h : EulerStateTransition ⟨0, 0, 0, 1⟩ V3R.zero 1 ≠ QuatR.zero := by
    intro hc
    have hcw := congrArg QuatR.w hc
    norm_num [EulerStateTransition, OmegaMul, QuatR.add, QuatR.smul, V3R.zero,
      QuatR.zero] at hcw
  exact ⟨h, integrate_enforces_invariant_setOrientation_does_not.1 _ _ _ h⟩

/-! ## Claim C9: the SDTP table from key-frame indices -/

/-- The populate loop, described positionally: reading the key-frame list
`pre ++ suf` with the cursor at `pre.length`, when every element of `suf`
is strictly beyond the current frame `i` and `suf` is strictly
increasing, the next `m` bytes mark exactly the frames whose 1-based
index lies in `suf`. -/
theorem sdtpGo_eq (m : ℕ) : ∀ (pre suf : List ℕ) (i : ℕ),
    suf.Chain' (· < ·) → (∀ x ∈ suf, i < x) →
    sdtpGo (pre ++ suf) m i pre.length =
      (List.range m).map (fun j =>
        if (i + j + 1) ∈ suf then kIFrameDescription else kPFrameDescription) := by
  induction m with
  | zero => intro pre suf i _ _; simp [sdtpGo]
  | succ m ih =>
      intro pre suf i hchain hgt
      rw [List.range_succ_eq_map, List.map_cons, List.map_map]
      match suf with
      | [] =>
          have hd : (pre ++ ([] : List ℕ)).getD pre.length 0 = 0 := by
            apply List.getD_eq_default
            simp
          rw [sdtpGo, hd, if_neg (by omega)]
          have htail := ih pre [] (i + 1) (by simp) (by simp)
          rw [htail]
          refine congrArg₂ _ (by simp) ?_
          apply List.map_congr_left
          intro j _
          simp only [Function.comp_apply, List.not_mem_nil, if_false]
      | s0 :: rest =>
          have hpair : (s0 :: rest).Pairwise (· < ·) :=
            List.chain'_iff_pairwise.mp hchain
          have hrest_gt : ∀ x ∈ rest, s0 < x := (List.pairwise_cons.mp hpair).1
          have hd : (pre ++ s0 :: rest).getD pre.length 0 = s0 := by
            rw [List.getD_append_right _ _ _ _ (le_refl _), Nat.sub_self]
            rfl
          rw [sdtpGo, hd]
          by_cases hm : i + 1 = s0
          · rw [if_pos hm]
            have hsplit : pre ++ s0 :: rest = (pre ++ [s0]) ++ rest := by simp
            have hlen : pre.length + 1 = (pre ++ [s0]).length := by simp
            rw [hsplit, hlen,
              ih (pre ++ [s0]) rest (i + 1) (List.Chain'.tail hchain)
                (fun x hx => by have := hrest_gt x hx; omega)]
            refine congrArg₂ _ ?_ ?_
            · rw [if_pos (by simp [← hm])]
            · apply List.map_congr_left
              intro j _
              simp only [Function.comp_apply]
              have harith : i + (j + 1) + 1 = i + 1 + j + 1 := by omega
              rw [harith]
              have hmem : (i + 1 + j + 1 ∈ s0 :: rest) ↔ (i + 1 + j + 1 ∈ rest) := by
                simp only [List.mem_cons]
                constructor
                · rintro (h | h)
                  · omega
                  · exact h
                · exact fun h => Or.inr h
              rw [if_congr hmem rfl rfl]
          · rw [if_neg hm]
            have hs0 : i + 1 < s0 := by
              have := hgt s0 (by simp)
              omega
            rw [ih pre (s0 :: rest) (i + 1) hchain
              (fun x hx => by
                rcases List.mem_cons.mp hx with h | h
                · omega
                · have := hrest_gt x h; omega)]
            refine congrArg₂ _ ?_ ?_
            · rw [if_neg]
              simp only [List.mem_cons]
              rintro (h | h)
              · omega
              · have := hrest_gt _ h
                omega
            · apply List.map_congr_left
              intro j _
              simp only [Function.comp_apply]
              have harith : i + (j + 1) + 1 = i + 1 + j + 1 := by omega
              rw [harith]

/-- Claim C9: for every non-empty strictly increasing list of 1-based
key-frame indices with last element n,
AtomSDTP::PopulateFromKeyFrameIndices produces exactly n
frame-description bytes, where byte i is the I-frame marker 0x20 when
i+1 is in the list and the droppable-P-frame marker 0x18 otherwise. -/
theorem sdtp_populate_spec (indices : List ℕ) (n : ℕ) (hne : indices ≠ [])
    (hchain : indices.Chain' (· < ·)) (hpos : ∀ x ∈ indices, 1 ≤ x)
    (hlast : indices.getLast hne = n) :
    (PopulateFromKeyFrameIndices indices).length = n ∧
    ∀ i, i < n →
      (PopulateFromKeyFrameIndices indices).getD i 0 =
        if (i + 1) ∈ indices then kIFrameDescription else kPFrameDescription := by
  have hlastD : indices.getLastD 0 = n := by
    rw [List.getLastD_eq_getLast?, List.getLast?_eq_getLast _ hne, hlast]
    rfl
  have hmain := sdtpGo_eq (indices.getLastD 0) [] indices 0 hchain
    (fun x hx => hpos x hx)
  rw [List.nil_append] at hmain
  have hpop : PopulateFromKeyFrameIndices indices =
      (List.range n).map (fun j =>
        if (j + 1) ∈ indices then kIFrameDescription else kPFrameDescription) := by
    rw [PopulateFromKeyFrameIndices]
    show sdtpGo indices (indices.getLastD 0) 0 ([] : List ℕ).length = _
    rw [hmain, hlastD]
    apply List.map_congr_left
    intro j _
    rw [Nat.zero_add]
  constructor
  · rw [hpop]
    simp
  · intro i hi
    rw [hpop, List.getD_eq_getElem _ _ (by simpa using hi)]
    simp

/-- Witness for C9 at the key-frame list [1, 13, 25], including the
explicit 25-byte table: 0x20 at positions 0, 12, 24 and 0x18 elsewhere. -/
theorem sdtp_populate_spec_witness :
    PopulateFromKeyFrameIndices [1, 13, 25] =
      [32, 24, 24, 24, 24, 24, 24, 24, 24, 24, 24, 24,
       32, 24, 24, 24, 24, 24, 24, 24, 24, 24, 24, 24, 32] ∧
    ((PopulateFromKeyFrameIndices [1, 13, 25]).length = 25 ∧
      ∀ i, i < 25 →
        (PopulateFromKeyFrameIndices [1, 13, 25]).getD i 0 =
          if (i + 1) ∈ [1, 13, 25] then kIFrameDescription
          else kPFrameDescription) := by
  refine ⟨by decide, sdtp_populate_spec [1, 13, 25] 25 (by decide)
    (by norm_num [List.chain'_cons]) (by decide) (by decide)⟩

/-! ## Claim C8: elst version promotion and round trip -/

theorem toInt64_toUInt64Bits (v : ℤ) (h1 : -2 ^ 63 ≤ v) (h2 : v < 2 ^ 63) :
    toInt64 (toUInt64Bits v) = v := by
  unfold toInt64 toUInt64Bits
  split <;> omega

theorem toInt16_toUInt16Bits (v : ℤ) (h1 : -2 ^ 15 ≤ v) (h2 : v < 2 ^ 15) :
    toInt16 (toUInt16Bits v) = v := by
  unfold toInt16 toUInt16Bits
  split <;> omega

theorem toUInt64Bits_lt (v : ℤ) : toUInt64Bits v < 2 ^ 64 := by
  unfold toUInt64Bits
  omega

theorem toUInt16Bits_lt (v : ℤ) : toUInt16Bits v < 2 ^ 16 := by
  unfold toUInt16Bits
  omega

/-- The entry loop of the v1 reader undoes the v1 writer for in-range
entries. -/
theorem readELSTEntries_v1 (es : List ELSTEntry) (rest : List ℕ)
    (hr : ∀ e ∈ es, ELSTEntryInRange e = true) :
    readELSTEntries 1 es.length
      ((es.flatMap fun e =>
        (PutUInt64 e.segment_duration ++ PutUInt64 (toUInt64Bits e.media_time)) ++
        PutUInt16 (toUInt16Bits e.media_rate_integer) ++
        PutUInt16 (toUInt16Bits e.media_rate_fraction)) ++ rest) =
      some (es, rest) := by
  induction es with
  | nil => rfl
  | cons e es ih =>
      have he := hr e (by simp)
      simp only [ELSTEntryInRange, Bool.and_eq_true, decide_eq_true_eq] at he
      obtain ⟨⟨⟨⟨⟨⟨hdur, hmt1⟩, hmt2⟩, hri1⟩, hri2⟩, hrf1⟩, hrf2⟩ := he
      simp only [List.flatMap_cons, List.length_cons, List.append_assoc]
      rw [readELSTEntries]
      simp only [reduceIte, Option.bind_eq_bind, Option.some_bind]
      rw [ReadUInt64_PutUInt64, Nat.mod_eq_of_lt hdur]
      simp only [Option.some_bind]
      rw [ReadUInt64_PutUInt64, Nat.mod_eq_of_lt (toUInt64Bits_lt _)]
      simp only [Option.some_bind]
      rw [ReadUInt16_PutUInt16, Nat.mod_eq_of_lt (toUInt16Bits_lt _)]
      simp only [Option.some_bind]
      rw [ReadUInt16_PutUInt16, Nat.mod_eq_of_lt (toUInt16Bits_lt _)]
      simp only [Option.some_bind]
      simp only [List.append_assoc] at ih
      rw [ih (fun x hx => hr x (by simp [hx]))]
      simp only [Option.some_bind]
      rw [toInt64_toUInt64Bits _ hmt1 hmt2, toInt16_toUInt16Bits _ hri1 hri2,
        toInt16_toUInt16Bits _ hrf1 hrf2]

/-- Payload round trip of a version-1 elst with in-range entries. -/
theorem elst_roundtrip_v1 (es : List ELSTEntry)
    (hr : ∀ e ∈ es, ELSTEntryInRange e = true) (hlen : es.length < 2 ^ 32) :
    ELSTReadData (ELSTDataSize ⟨1, 0, es⟩) (ELSTWriteData ⟨1, 0, es⟩) =
      some (⟨1, 0, es⟩, []) := by
  simp only [ELSTWriteData, ELSTReadData, ELSTDataSize, ELSTEntrySize, reduceIte,
    Option.bind_eq_bind, List.append_assoc]
  rw [ReadUInt8_PutUInt8]
  simp only [Option.some_bind, Nat.reducePow, Nat.reduceMod]
  rw [ReadUInt24_PutUInt24]
  simp only [Option.some_bind, Nat.zero_mod, Nat.reducePow, Nat.reduceMod]
  rw [ReadUInt32_PutUInt32, Nat.mod_eq_of_lt (by omega : es.length < 2 ^ 32)]
  simp only [Option.some_bind, reduceIte]
  rw [if_neg (by omega)]
  have hread := readELSTEntries_v1 es [] hr
  rw [List.append_nil] at hread
  simp only [List.append_assoc] at hread
  rw [hread]
  simp only [Option.some_bind]

theorem foldl_ELSTAddEntry_entries (es : List ELSTEntry) (d : ELSTData) :
    (es.foldl ELSTAddEntry d).entries = d.entries ++ es := by
  induction es generalizing d with
  | nil => simp
  | cons e es ih => simp [ih, ELSTAddEntry]

theorem foldl_ELSTAddEntry_flags (es : List ELSTEntry) (d : ELSTData) :
    (es.foldl ELSTAddEntry d).flags = d.flags := by
  induction es generalizing d with
  | nil => rfl
  | cons e es ih => simp [ih, ELSTAddEntry]

theorem foldl_ELSTAddEntry_version_one (es : List ELSTEntry) (d : ELSTData)
    (h : d.version = 1) : (es.foldl ELSTAddEntry d).version = 1 := by
  induction es generalizing d with
  | nil => exact h
  | cons e es ih =>
      apply ih
      simp only [ELSTAddEntry]
      split <;> simp [h]

theorem foldl_ELSTAddEntry_version_big (es : List ELSTEntry) (d : ELSTData)
    (h : ∃ e ∈ es, e.media_time > 2 ^ 31 - 1) :
    (es.foldl ELSTAddEntry d).version = 1 := by
  induction es generalizing d with
  | nil => simp at h
  | cons e es ih =>
      rcases h with ⟨x, hx, hbig⟩
      rcases List.mem_cons.mp hx with rfl | hx2
      · rw [List.foldl_cons]
        apply foldl_ELSTAddEntry_version_one
        simp only [ELSTAddEntry]
        rw [if_pos (Or.inr (Or.inl hbig))]
      · exact ih _ ⟨x, hx2, hbig⟩

/-- Claim C8: AtomELST::AddEntry promotes the version to 1 whenever the
entry's segment duration exceeds 2^32 - 1 or its media time lies outside
[-2^31, 2^31 - 1]; and for any sequence of entries added from the fresh
atom, if some entry has media time above 2^31 - 1 then the atom is at
version 1 and writing its payload with WriteDataWithoutChildren and
reading it back with ReadDataWithoutChildren reproduces the same entry
list. -/
theorem elst_addEntry_promotion_roundtrip :
    (∀ (d : ELSTData) (e : ELSTEntry),
        e.segment_duration > 2 ^ 32 - 1 ∨ e.media_time > 2 ^ 31 - 1 ∨
          e.media_time < -2 ^ 31 →
        (ELSTAddEntry d e).version = 1) ∧
    ∀ (es : List ELSTEntry),
      (∀ e ∈ es, ELSTEntryInRange e = true) →
      es.length < 2 ^ 32 →
      (∃ e ∈ es, e.media_time > 2 ^ 31 - 1) →
      (es.foldl ELSTAddEntry ELSTInit).version = 1 ∧
      (es.foldl ELSTAddEntry ELSTInit).entries = es ∧
      ELSTReadData (ELSTDataSize (es.foldl ELSTAddEntry ELSTInit))
          (ELSTWriteData (es.foldl ELSTAddEntry ELSTInit)) =
        some (es.foldl ELSTAddEntry ELSTInit, []) := by
  constructor
  · intro d e h
    simp only [ELSTAddEntry]
    rw [if_pos h]
  · intro es hr hlen hbig
    have hv : (es.foldl ELSTAddEntry ELSTInit).version = 1 :=
      foldl_ELSTAddEntry_version_big es ELSTInit hbig
    have hents : (es.foldl ELSTAddEntry ELSTInit).entries = es := by
      rw [foldl_ELSTAddEntry_entries]
      rfl
    have hflags : (es.foldl ELSTAddEntry ELSTInit).flags = 0 :=
      foldl_ELSTAddEntry_flags es ELSTInit
    refine ⟨hv, hents, ?_⟩
    rcases hfold : es.foldl ELSTAddEntry ELSTInit with ⟨v, f, ents⟩
    rw [hfold] at hv hents hflags
    obtain rfl : v = 1 := hv
    obtain rfl : f = 0 := hflags
    obtain rfl : ents = es := hents
    exact elst_roundtrip_v1 ents hr hlen

/-- Witness for C8 at a single entry with media time 2^31 (just above the
32-bit signed bound). -/
theorem elst_addEntry_promotion_roundtrip_witness :
    (ELSTAddEntry ELSTInit ⟨5, 2 ^ 31, 1, 0⟩).version = 1 ∧
    (([⟨5, 2 ^ 31, 1, 0⟩] : List ELSTEntry).foldl ELSTAddEntry ELSTInit).version = 1 ∧
    (([⟨5, 2 ^ 31, 1, 0⟩] : List ELSTEntry).foldl ELSTAddEntry ELSTInit).entries =
      [⟨5, 2 ^ 31, 1, 0⟩] ∧
    ELSTReadData
        (ELSTDataSize (([⟨5, 2 ^ 31, 1, 0⟩] : List ELSTEntry).foldl ELSTAddEntry ELSTInit))
        (ELSTWriteData (([⟨5, 2 ^ 31, 1, 0⟩] : List ELSTEntry).foldl ELSTAddEntry ELSTInit)) =
      some (([⟨5, 2 ^ 31, 1, 0⟩] : List ELSTEntry).foldl ELSTAddEntry ELSTInit, []) := by
  have h := elst_addEntry_promotion_roundtrip
  have h2 := h.2 [⟨5, 2 ^ 31, 1, 0⟩] (by decide) (by decide)
    ⟨⟨5, 2 ^ 31, 1, 0⟩, by decide, by decide⟩
  exact ⟨h.1 ELSTInit ⟨5, 2 ^ 31, 1, 0⟩ (Or.inr (Or.inl (by decide))),
    h2.1, h2.2.1, h2.2.2⟩

/-! ## Claim C1: parse followed by serialize -/

theorem ReadTag_of_length (t : List ℕ) (h : t.length = 4) (rest : List ℕ) :
    ReadTag (t ++ rest) = some (t, rest) :=
  match t, h with
  | [_, _, _, _], _ => rfl

theorem flatMap_width (f : ℕ → List ℕ) (c : ℕ) (l : List ℕ)
    (h : ∀ o ∈ l, (f o).length = c) : (l.flatMap f).length = l.length * c := by
  induction l with
  | nil => simp
  | cons a l ih =>
      simp only [List.flatMap_cons, List.length_append, List.length_cons,
        h a (by simp), ih fun o ho => h o (by simp [ho])]
      ring

theorem STCOWriteData_length (tag : List ℕ) (d : STCOData) :
    (STCOWriteData tag d).length = STCODataSize tag d := by
  have hfm : (d.chunk_offsets.flatMap fun o =>
      if tag = stcoTag then PutUInt32 (stcoWrittenOffset o d.moov_size_delta)
      else PutUInt64 (stcoWrittenOffset o d.moov_size_delta)).length
      = d.chunk_offsets.length * stcoEntrySize tag := by
    apply flatMap_width
    intro o _
    by_cases htag : tag = stcoTag <;>
      simp [htag, stcoEntrySize, PutUInt32, PutUInt64]
  simp only [STCOWriteData, STCODataSize, List.length_append, hfm]
  simp only [PutUInt8, PutUInt24, PutUInt32, List.length_cons, List.length_nil]

theorem AtomWf_size (a : Atom) (h : AtomWf a = true) : 8 ≤ a.size := by
  obtain ⟨t, hsz, dsz, term, k, ch⟩ := a
  rw [AtomWf.eq_def] at h
  simp only [Bool.and_eq_true, Bool.or_eq_true, decide_eq_true_eq] at h
  obtain ⟨⟨⟨_, _⟩, hhs⟩, _⟩ := h
  simp only [Atom.size, Atom.header_size, Atom.data_size]
  rcases hhs with ⟨rfl, _⟩ | ⟨rfl, _⟩ <;> omega

mutual
theorem WriteAtom_length (a : Atom) (h : AtomWf a = true) :
    ∃ bs, WriteAtom a = some bs ∧ bs.length = a.size :=
  match a with
  | .mk t hsz dsz term k ch => by
      rw [AtomWf.eq_def] at h
      simp only [Bool.and_eq_true, Bool.or_eq_true, decide_eq_true_eq] at h
      obtain ⟨⟨⟨htl, hkm⟩, hhs⟩, hk⟩ := h
      have hch : AtomListWf ch = true := by
        cases k with
        | dflt payload =>
            simp only [Bool.and_eq_true, decide_eq_true_eq] at hk
            rw [hk.1.1]; rfl
        | container =>
            simp only [Bool.and_eq_true, decide_eq_true_eq] at hk
            exact hk.2
        | stco d =>
            simp only [Bool.and_eq_true, decide_eq_true_eq] at hk
            rw [hk.1.1.1]; rfl
      obtain ⟨cbs, hcw, hcl⟩ := WriteChildAtoms_length ch hch
      have hhdr : ∃ hdr, WriteAtomHeader (Atom.mk t hsz dsz term k ch) = some hdr ∧
          hdr.length = hsz := by
        rcases hhs with ⟨rfl, _⟩ | ⟨rfl, _⟩
        · exact ⟨_, by rw [WriteAtomHeader]; rfl,
            by simp [PutUInt32, Atom.atom_type, htl]⟩
        · exact ⟨_, by rw [WriteAtomHeader]; rfl,
            by simp [PutUInt32, PutUInt64, Atom.atom_type, htl]⟩
      obtain ⟨hdr, hhw, hhl⟩ := hhdr
      refine ⟨hdr ++ writeKindData t k ++ cbs ++ (if term then PutUInt32 0 else []),
        ?_, ?_⟩
      · rw [WriteAtom, hhw, hcw]
        rfl
      · have hterm : (if term then PutUInt32 0 else []).length =
            if term then 4 else 0 := by cases term <;> rfl
        have hkd : (writeKindData t k).length + ch.sumSize +
            (if term then 4 else 0) = dsz := by
          cases k with
          | dflt payload =>
              simp only [Bool.and_eq_true, decide_eq_true_eq] at hk
              obtain ⟨⟨hnil, hf⟩, hpl⟩ := hk
              rw [hnil, hf]
              simp only [writeKindData, AtomList.sumSize]
              simpa using hpl
          | container =>
              simp only [Bool.and_eq_true, decide_eq_true_eq] at hk
              rw [hk.1]
              cases term <;> simp [writeKindData]
          | stco d =>
              simp only [Bool.and_eq_true, decide_eq_true_eq] at hk
              obtain ⟨⟨⟨hnil, hf⟩, hds⟩, _⟩ := hk
              rw [hnil, hf, hds]
              simp only [writeKindData, AtomList.sumSize, STCOWriteData_length]
              simp
        simp only [List.length_append, hhl, hcl, hterm, Atom.size,
          Atom.header_size, Atom.data_size]
        omega

theorem WriteChildAtoms_length (l : AtomList) (h : AtomListWf l = true) :
    ∃ bs, WriteChildAtoms l = some bs ∧ bs.length = l.sumSize :=
  match l with
  | .nil => ⟨[], rfl, rfl⟩
  | .cons a as => by
      rw [AtomListWf] at h
      simp only [Bool.and_eq_true] at h
      obtain ⟨ba, haw, hal⟩ := WriteAtom_length a h.1
      obtain ⟨bas, hasw, hasl⟩ := WriteChildAtoms_length as h.2
      refine ⟨ba ++ bas, ?_, ?_⟩
      · rw [WriteChildAtoms, haw, hasw]; rfl
      · simp only [List.length_append, hal, hasl, AtomList.sumSize]
end

theorem stcoWrittenOffset_zero (o : ℕ) (h : o < 2 ^ 64) :
    stcoWrittenOffset o 0 = o := by
  unfold stcoWrittenOffset
  omega

theorem readSTCOOffsets_write32 (os : List ℕ) (rest : List ℕ)
    (h : ∀ o ∈ os, o < 2 ^ 32) :
    readSTCOOffsets stcoTag os.length
      ((os.flatMap fun o => PutUInt32 (stcoWrittenOffset o 0)) ++ rest) =
      some (os, rest) := by
  induction os with
  | nil => rfl
  | cons o os ih =>
      have ho := h o (by simp)
      simp only [List.flatMap_cons, List.length_cons, List.append_assoc]
      rw [readSTCOOffsets]
      rw [if_pos rfl, ReadUInt32_PutUInt32,
        stcoWrittenOffset_zero o (by omega), Nat.mod_eq_of_lt ho]
      simp only [Option.bind_eq_bind, Option.some_bind]
      rw [ih fun x hx => h x (by simp [hx])]
      rfl

theorem readSTCOOffsets_write64 (tag : List ℕ) (htag : tag ≠ stcoTag)
    (os : List ℕ) (rest : List ℕ) (h : ∀ o ∈ os, o < 2 ^ 64) :
    readSTCOOffsets tag os.length
      ((os.flatMap fun o => PutUInt64 (stcoWrittenOffset o 0)) ++ rest) =
      some (os, rest) := by
  induction os with
  | nil => rfl
  | cons o os ih =>
      have ho := h o (by simp)
      simp only [List.flatMap_cons, List.length_cons, List.append_assoc]
      rw [readSTCOOffsets]
      rw [if_neg htag, ReadUInt64_PutUInt64,
        stcoWrittenOffset_zero o ho, Nat.mod_eq_of_lt ho]
      simp only [Option.bind_eq_bind, Option.some_bind]
      rw [ih fun x hx => h x (by simp [hx])]
      rfl

theorem STCOReadData_write (tag : List ℕ) (d : STCOData) (rest : List ℕ)
    (hwf : STCOWf tag d = true) :
    STCOReadData tag (STCODataSize tag d) (STCOWriteData tag d ++ rest) =
      some (d, rest) := by
  obtain ⟨v, fl, os, δ, mx⟩ := d
  simp only [STCOWf, Bool.and_eq_true, decide_eq_true_eq, List.all_eq_true] at hwf
  obtain ⟨⟨⟨⟨⟨hv, hfl⟩, hδ⟩, hmx⟩, hlen⟩, hall⟩ := hwf
  subst hδ
  subst hmx
  simp only [STCOWriteData, STCOReadData, Option.bind_eq_bind, List.append_assoc]
  rw [ReadUInt8_PutUInt8, Nat.mod_eq_of_lt hv]
  simp only [Option.some_bind]
  rw [ReadUInt24_PutUInt24, Nat.mod_eq_of_lt hfl]
  simp only [Option.some_bind]
  rw [ReadUInt32_PutUInt32, Nat.mod_eq_of_lt hlen]
  simp only [Option.some_bind]
  rw [if_neg (by simp [STCODataSize])]
  by_cases htag : tag = stcoTag
  · subst htag
    simp only [reduceIte]
    rw [readSTCOOffsets_write32 os rest fun o ho => by
      have := hall o ho
      simp only [stcoEntrySize, reduceIte] at this
      omega]
    rfl
  · simp only [if_neg htag]
    rw [readSTCOOffsets_write64 tag htag os rest fun o ho => by
      have := hall o ho
      simp only [stcoEntrySize, if_neg htag] at this
      omega]
    rfl

theorem Read_mono (fuel : ℕ) :
    (∀ bs r, ReadAtom fuel bs = some r → ReadAtom (fuel + 1) bs = some r) ∧
    (∀ csize sum bs r, ReadChildAtoms fuel csize sum bs = some r →
      ReadChildAtoms (fuel + 1) csize sum bs = some r) := by
  induction fuel with
  | zero =>
      refine ⟨fun bs r h => ?_, fun csize sum bs r h => ?_⟩ <;>
        simp [ReadAtom, ReadChildAtoms] at h
  | succ f ih =>
      refine ⟨fun bs r h => ?_, fun csize sum bs r h => ?_⟩
      · rw [ReadAtom] at h ⊢
        cases hH : ReadHeader bs with
        | none => rw [hH] at h; simp at h
        | some v =>
        obtain ⟨hsz, dsz, tag, r1⟩ := v
        rw [hH] at h
        simp only [Option.bind_eq_bind, Option.some_bind] at h ⊢
        cases hK : readKindData tag dsz r1 with
        | none => rw [hK] at h; simp at h
        | some w =>
        obtain ⟨k, r2⟩ := w
        rw [hK] at h
        simp only [Option.some_bind] at h ⊢
        cases hC : ReadChildAtoms f (dsz - kindDataSize tag dsz k) 0 r2 with
        | none => rw [hC] at h; simp at h
        | some u =>
        obtain ⟨children, r3⟩ := u
        rw [hC] at h
        rw [ih.2 _ _ _ _ hC]
        simp only [Option.some_bind] at h ⊢
        exact h
      · rw [ReadChildAtoms] at h ⊢
        by_cases hc8 : sum + 8 ≤ csize
        · rw [if_pos hc8] at h ⊢
          cases hA : ReadAtom f bs with
          | none => rw [hA] at h; simp at h
          | some v =>
          obtain ⟨c, r1⟩ := v
          rw [hA] at h
          rw [ih.1 _ _ hA]
          simp only [Option.bind_eq_bind, Option.some_bind] at h ⊢
          cases hC : ReadChildAtoms f csize (sum + c.size) r1 with
          | none => rw [hC] at h; simp at h
          | some u =>
          rw [hC] at h
          rw [ih.2 _ _ _ _ hC]
          simp only [Option.some_bind] at h ⊢
          exact h
        · rw [if_neg hc8] at h ⊢
          exact h

theorem ReadAtom_mono_le (f f2 : ℕ) (hle : f ≤ f2) (bs : List ℕ)
    (r : Atom × List ℕ) (h : ReadAtom f bs = some r) :
    ReadAtom f2 bs = some r := by
  induction hle with
  | refl => exact h
  | step _ ih => exact (Read_mono _).1 _ _ ih

theorem ReadChildAtoms_mono_le (f f2 : ℕ) (hle : f ≤ f2) (csize sum : ℕ)
    (bs : List ℕ) (r : AtomList × List ℕ)
    (h : ReadChildAtoms f csize sum bs = some r) :
    ReadChildAtoms f2 csize sum bs = some r := by
  induction hle with
  | refl => exact h
  | step _ ih => exact (Read_mono _).2 _ _ _ _ ih

theorem ReadHeader_write (t : List ℕ) (hsz dsz : ℕ) (term : Bool)
    (k : AtomKind) (ch : AtomList) (hdr rest : List ℕ) (htl : t.length = 4)
    (hhs : (hsz = 8 ∧ hsz + dsz < 2 ^ 32) ∨ (hsz = 16 ∧ hsz + dsz < 2 ^ 64))
    (hw : WriteAtomHeader (Atom.mk t hsz dsz term k ch) = some hdr) :
    ReadHeader (hdr ++ rest) = some (hsz, dsz, t, rest) := by
  rcases hhs with ⟨rfl, hlt⟩ | ⟨rfl, hlt⟩
  · rw [WriteAtomHeader] at hw
    simp only [Atom.header_size, Atom.size, Atom.data_size, Atom.atom_type,
      reduceIte, Option.some.injEq] at hw
    subst hw
    simp only [ReadHeader, Option.bind_eq_bind, List.append_assoc]
    rw [ReadUInt32_PutUInt32, Nat.mod_eq_of_lt hlt]
    simp only [Option.some_bind]
    rw [ReadTag_of_length t htl]
    simp only [Option.some_bind]
    rw [if_neg (by omega), if_neg (by omega), if_neg (by omega)]
    have h8 : 8 + dsz - 8 = dsz := by omega
    rw [h8]
  · rw [WriteAtomHeader] at hw
    simp only [Atom.header_size, Atom.size, Atom.data_size, Atom.atom_type] at hw
    norm_num at hw
    subst hw
    simp only [ReadHeader, Option.bind_eq_bind, List.append_assoc]
    rw [ReadUInt32_PutUInt32]
    simp only [Nat.reducePow, Nat.reduceMod, Option.some_bind]
    rw [ReadTag_of_length t htl]
    simp only [Option.some_bind, reduceIte]
    rw [ReadUInt64_PutUInt64, Nat.mod_eq_of_lt hlt]
    simp only [Option.some_bind]
    rw [if_neg (by omega)]
    have h16 : 16 + dsz - 16 = dsz := by omega
    rw [h16]

theorem readKindData_write (t : List ℕ) (dsz : ℕ) (k : AtomKind)
    (rest : List ℕ) (hkm : kindMatches t k = true)
    (hx : match k with
      | .dflt p => p.length = dsz
      | .container => True
      | .stco d => dsz = STCODataSize t d ∧ STCOWf t d = true) :
    readKindData t dsz (writeKindData t k ++ rest) = some (k, rest) := by
  cases k with
  | dflt payload =>
      simp only [kindMatches, decide_eq_true_eq] at hkm
      rw [readKindData, hkm]
      rw [if_pos (by simp only [writeKindData, List.length_append]; omega)]
      rw [show writeKindData t (AtomKind.dflt payload) = payload from rfl]
      rw [← hx, List.take_left, List.drop_left]
  | container =>
      simp only [kindMatches, decide_eq_true_eq] at hkm
      rw [readKindData, hkm]
      rfl
  | stco d =>
      simp only [kindMatches, decide_eq_true_eq] at hkm
      rw [readKindData, hkm]
      rw [show writeKindData t (AtomKind.stco d) = STCOWriteData t d from rfl]
      rw [hx.1, STCOReadData_write t d rest hx.2]
      rfl

theorem ReadChildAtoms_nil (csize sum : ℕ) (rest : List ℕ)
    (hlt : csize < sum + 8) :
    ReadChildAtoms 1 csize sum rest = some (AtomList.nil, rest) := by
  rw [show (1 : ℕ) = 0 + 1 from rfl, ReadChildAtoms]
  rw [if_neg (by omega)]

mutual
theorem ReadAtom_write (a : Atom) (bs rest : List ℕ) (h : AtomWf a = true)
    (hw : WriteAtom a = some bs) :
    ReadAtom (needA a) (bs ++ rest) = some (a, rest) :=
  match a with
  | .mk t hsz dsz term k ch => by
      have hbl : bs.length = hsz + dsz := by
        obtain ⟨bs0, hw0, hl0⟩ := WriteAtom_length (Atom.mk t hsz dsz term k ch) h
        rw [hw] at hw0
        injection hw0 with hb
        rw [hb]
        simpa [Atom.size, Atom.header_size, Atom.data_size] using hl0
      rw [AtomWf.eq_def] at h
      simp only [Bool.and_eq_true, Bool.or_eq_true, decide_eq_true_eq] at h
      obtain ⟨⟨⟨htl, hkm⟩, hhs⟩, hk⟩ := h
      have hhs8 : 8 ≤ hsz := by rcases hhs with ⟨h1, _⟩ | ⟨h1, _⟩ <;> omega
      rw [WriteAtom] at hw
      cases hH : WriteAtomHeader (Atom.mk t hsz dsz term k ch) with
      | none => rw [hH] at hw; simp at hw
      | some hdr =>
      cases hC : WriteChildAtoms ch with
      | none => rw [hH, hC] at hw; simp at hw
      | some cbs =>
      rw [hH, hC] at hw
      simp only [Option.bind_eq_bind, Option.some_bind, Option.some.injEq] at hw
      subst hw
      rw [show needA (Atom.mk t hsz dsz term k ch) = needL ch + 1 from rfl, ReadAtom]
      simp only [List.append_assoc]
      rw [ReadHeader_write t hsz dsz term k ch hdr _ htl hhs hH]
      simp only [Option.bind_eq_bind, Option.some_bind]
      cases k with
      | dflt payload =>
          simp only [Bool.and_eq_true, decide_eq_true_eq] at hk
          obtain ⟨⟨hnil, hf⟩, hpl⟩ := hk
          subst hnil
          subst hf
          rw [WriteChildAtoms] at hC
          injection hC with hC
          subst hC
          rw [show (if (false : Bool) = true then PutUInt32 0 else ([] : List ℕ))
            = [] from rfl] at hbl ⊢
          simp only [List.nil_append, List.append_nil]
          simp only [List.length_append, writeKindData, List.length_nil] at hbl
          rw [readKindData_write t dsz (AtomKind.dflt payload) rest hkm hpl]
          simp only [Option.some_bind]
          rw [show kindDataSize t dsz (AtomKind.dflt payload) = dsz from rfl,
            Nat.sub_self, show needL AtomList.nil = 1 from rfl]
          rw [ReadChildAtoms_nil 0 0 rest (by omega)]
          simp only [Option.some_bind]
          have hfl : (hdr ++ (writeKindData t (AtomKind.dflt payload) ++ rest)).length
              = hsz + dsz + rest.length := by
            simp only [List.length_append, writeKindData]
            omega
          simp only [hfl]
          rw [if_neg (by omega), if_pos (by omega)]
      | container =>
          simp only [Bool.and_eq_true, decide_eq_true_eq] at hk
          obtain ⟨hds, hwl⟩ := hk
          rw [readKindData_write t dsz AtomKind.container _ hkm trivial]
          simp only [Option.some_bind]
          rw [show kindDataSize t dsz AtomKind.container = 0 from rfl, Nat.sub_zero]
          have hrc := ReadChildAtoms_write ch cbs
            ((if term then PutUInt32 0 else []) ++ rest) 0 dsz
            (if term then 4 else 0) hwl hC
            (by omega) (by cases term <;> decide)
          rw [hrc]
          simp only [Option.some_bind]
          cases term with
          | false =>
              rw [show (if (false : Bool) = true then PutUInt32 0 else ([] : List ℕ))
                = [] from rfl] at hbl ⊢
              simp only [List.nil_append, List.append_nil]
              simp only [List.length_append, writeKindData, List.length_nil] at hbl
              have hfl : (hdr ++ (writeKindData t AtomKind.container ++
                  (cbs ++ rest))).length = hsz + dsz + rest.length := by
                simp only [List.length_append, writeKindData, List.length_nil]
                omega
              simp only [hfl]
              rw [if_neg (by omega), if_pos (by omega)]
          | true =>
              rw [show (if (true : Bool) = true then PutUInt32 0 else ([] : List ℕ))
                = PutUInt32 0 from rfl] at hbl ⊢
              simp only [List.length_append, writeKindData, List.length_nil,
                PutUInt32, List.length_cons] at hbl
              have hfl : (hdr ++ (writeKindData t AtomKind.container ++
                  (cbs ++ (PutUInt32 0 ++ rest)))).length
                  = hsz + dsz + rest.length := by
                simp only [List.length_append, writeKindData, List.length_nil,
                  PutUInt32, List.length_cons]
                omega
              have h4 : (PutUInt32 0 ++ rest).length = 4 + rest.length := by
                simp only [List.length_append, PutUInt32, List.length_cons,
                  List.length_nil]
              simp only [hfl, h4]
              rw [if_pos (by omega)]
              rw [ReadUInt32_PutUInt32]
              simp only [Option.bind_eq_bind, Option.some_bind]
              rw [if_pos (by omega)]
      | stco d =>
          simp only [Bool.and_eq_true, decide_eq_true_eq] at hk
          obtain ⟨⟨⟨hnil, hf⟩, hds⟩, hwfd⟩ := hk
          subst hnil
          subst hf
          rw [WriteChildAtoms] at hC
          injection hC with hC
          subst hC
          rw [show (if (false : Bool) = true then PutUInt32 0 else ([] : List ℕ))
            = [] from rfl] at hbl ⊢
          simp only [List.nil_append, List.append_nil]
          simp only [List.length_append, writeKindData, STCOWriteData_length,
            List.length_nil] at hbl
          rw [readKindData_write t dsz (AtomKind.stco d) rest hkm ⟨hds, hwfd⟩]
          simp only [Option.some_bind]
          have hcs0 : dsz - kindDataSize t dsz (AtomKind.stco d) = 0 := by
            rw [show kindDataSize t dsz (AtomKind.stco d) = STCODataSize t d from rfl]
            omega
          rw [hcs0, show needL AtomList.nil = 1 from rfl]
          rw [ReadChildAtoms_nil 0 0 rest (by omega)]
          simp only [Option.some_bind]
          have hfl : (hdr ++ (writeKindData t (AtomKind.stco d) ++ rest)).length
              = hsz + dsz + rest.length := by
            simp only [List.length_append, writeKindData, STCOWriteData_length]
            omega
          simp only [hfl]
          rw [if_neg (by omega), if_pos (by omega)]

theorem ReadChildAtoms_write (l : AtomList) (bs rest : List ℕ) (sum csize e : ℕ)
    (h : AtomListWf l = true) (hw : WriteChildAtoms l = some bs)
    (hcs : csize = sum + l.sumSize + e) (he : e < 8) :
    ReadChildAtoms (needL l) csize sum (bs ++ rest) = some (l, rest) :=
  match l with
  | .nil => by
      rw [WriteChildAtoms] at hw
      injection hw with hw
      subst hw
      simp only [AtomList.sumSize] at hcs
      rw [show needL AtomList.nil = 0 + 1 from rfl, ReadChildAtoms]
      rw [if_neg (by omega)]
      rw [List.nil_append]
  | .cons a as => by
      rw [AtomListWf] at h
      simp only [Bool.and_eq_true] at h
      rw [WriteChildAtoms] at hw
      cases hA : WriteAtom a with
      | none => rw [hA] at hw; simp at hw
      | some ba =>
      cases hAs : WriteChildAtoms as with
      | none => rw [hA, hAs] at hw; simp at hw
      | some bas =>
      rw [hA, hAs] at hw
      simp only [Option.bind_eq_bind, Option.some_bind, Option.some.injEq] at hw
      subst hw
      have h8 : 8 ≤ a.size := AtomWf_size a h.1
      simp only [AtomList.sumSize] at hcs
      rw [show needL (AtomList.cons a as) = max (needA a) (needL as) + 1 from rfl,
        ReadChildAtoms]
      rw [if_pos (by omega)]
      have hra := ReadAtom_write a ba (bas ++ rest) h.1 hA
      have hra2 := ReadAtom_mono_le (needA a) (max (needA a) (needL as))
        (le_max_left _ _) _ _ hra
      simp only [List.append_assoc]
      rw [hra2]
      simp only [Option.bind_eq_bind, Option.some_bind]
      have hrc := ReadChildAtoms_write as bas rest (sum + a.size) csize e h.2 hAs
        (by omega) he
      have hrc2 := ReadChildAtoms_mono_le (needL as) (max (needA a) (needL as))
        (le_max_right _ _) _ _ _ _ hrc
      rw [hrc2]
      rfl
end

mutual
theorem needA_le (a : Atom) (h : AtomWf a = true) : needA a ≤ a.size :=
  match a with
  | .mk t hsz dsz term k ch => by
      rw [AtomWf.eq_def] at h
      simp only [Bool.and_eq_true, Bool.or_eq_true, decide_eq_true_eq] at h
      obtain ⟨⟨⟨htl, hkm⟩, hhs⟩, hk⟩ := h
      have hhs8 : 8 ≤ hsz := by rcases hhs with ⟨h1, _⟩ | ⟨h1, _⟩ <;> omega
      rw [show needA (Atom.mk t hsz dsz term k ch) = needL ch + 1 from rfl]
      simp only [Atom.size, Atom.header_size, Atom.data_size]
      cases k with
      | dflt payload =>
          simp only [Bool.and_eq_true, decide_eq_true_eq] at hk
          rw [hk.1.1, show needL AtomList.nil = 1 from rfl]
          omega
      | container =>
          simp only [Bool.and_eq_true, decide_eq_true_eq] at hk
          have hle := needL_le ch hk.2
          have hsle : ch.sumSize ≤ dsz := by
            rw [hk.1]
            cases term <;> simp
          omega
      | stco d =>
          simp only [Bool.and_eq_true, decide_eq_true_eq] at hk
          rw [hk.1.1.1, show needL AtomList.nil = 1 from rfl]
          omega
theorem needL_le (l : AtomList) (h : AtomListWf l = true) :
    needL l ≤ l.sumSize + 1 :=
  match l with
  | .nil => by
      rw [show needL AtomList.nil = 1 from rfl]
      simp [AtomList.sumSize]
  | .cons a as => by
      rw [AtomListWf] at h
      simp only [Bool.and_eq_true] at h
      have h1 := needA_le a h.1
      have h2 := needL_le as h.2
      have h8 := AtomWf_size a h.1
      rw [show needL (AtomList.cons a as) = max (needA a) (needL as) + 1 from rfl]
      simp only [AtomList.sumSize]
      have hm := Nat.max_le.mpr (⟨by omega, by omega⟩ :
        needA a ≤ a.size + as.sumSize ∧ needL as ≤ a.size + as.sumSize)
      omega
end

theorem ReadTopLevelAtoms_write (atoms : List Atom) :
    ∀ (bs : List ℕ) (fuel : ℕ), TopWf atoms = true →
      WriteTopLevelAtoms atoms = some bs → atoms.length ≤ fuel →
      ReadTopLevelAtoms fuel bs = atoms := by
  induction atoms with
  | nil =>
      intro bs fuel h hw hf
      rw [WriteTopLevelAtoms] at hw
      injection hw with hw
      subst hw
      cases fuel <;> rfl
  | cons a atoms ih =>
      intro bs fuel h hw hf
      simp only [TopWf, List.all_cons, Bool.and_eq_true] at h
      rw [WriteTopLevelAtoms] at hw
      cases hA : WriteAtom a with
      | none => rw [hA] at hw; simp at hw
      | some ba =>
      cases hAs : WriteTopLevelAtoms atoms with
      | none => rw [hA, hAs] at hw; simp at hw
      | some bas =>
      rw [hA, hAs] at hw
      simp only [Option.bind_eq_bind, Option.some_bind, Option.some.injEq] at hw
      subst hw
      obtain ⟨b0, hw0, hl0⟩ := WriteAtom_length a h.1
      rw [hA] at hw0
      injection hw0 with hb
      subst hb
      have h8 : 8 ≤ a.size := AtomWf_size a h.1
      cases fuel with
      | zero => simp at hf
      | succ f =>
      rcases hb0 : ba with _ | ⟨x, xs⟩
      · rw [hb0] at hl0
        simp at hl0
        omega
      · subst hb0
        simp only [List.cons_append]
        rw [ReadTopLevelAtoms]
        have hra := ReadAtom_write a (x :: xs) bas h.1 hA
        have hle : needA a ≤ (x :: (xs ++ bas)).length + 1 := by
          have hn := needA_le a h.1
          simp only [List.length_cons, List.length_append]
          simp only [List.length_cons] at hl0
          omega
        have hra2 := ReadAtom_mono_le (needA a) ((x :: (xs ++ bas)).length + 1)
          hle _ _ hra
        rw [show (x :: xs) ++ bas = x :: (xs ++ bas) from rfl] at hra2
        rw [hra2]
        show a :: ReadTopLevelAtoms f bas = a :: atoms
        have hfle : atoms.length ≤ f := by
          simp only [List.length_cons] at hf
          omega
        rw [ih bas f h.2 hAs hfle]
        simp

theorem GetAtomIndex_spec (tag : List ℕ) (l : List Atom) (i : ℕ) :
    GetAtomIndex tag l = some i ↔
      i < l.length ∧ (l.getD i default).atom_type = tag ∧
        ∀ k, k < i → (l.getD k default).atom_type ≠ tag := by
  induction l generalizing i with
  | nil => simp [GetAtomIndex]
  | cons a l ih =>
      rw [GetAtomIndex]
      by_cases hp : a.atom_type = tag
      · rw [if_pos hp]
        constructor
        · intro h
          injection h with h
          subst h
          exact ⟨by simp, by simpa using hp, fun k hk => absurd hk (by omega)⟩
        · rintro ⟨h1, h2, h3⟩
          rcases i with _ | i
          · rfl
          · exact absurd hp (by simpa using h3 0 (by omega))
      · rw [if_neg hp]
        constructor
        · intro h
          rw [Option.map_eq_some'] at h
          obtain ⟨j, hj, hji⟩ := h
          subst hji
          obtain ⟨h1, h2, h3⟩ := (ih j).mp hj
          refine ⟨by simpa using h1, by simpa using h2, ?_⟩
          intro k hk
          rcases k with _ | k
          · simpa using hp
          · simpa using h3 k (by omega)
        · rintro ⟨h1, h2, h3⟩
          rcases i with _ | i
          · exact absurd (by simpa using h2) hp
          · rw [Option.map_eq_some']
            exact ⟨i, (ih i).mpr ⟨by simpa using h1, by simpa using h2,
              fun k hk => by simpa using h3 (k + 1) (by omega)⟩, rfl⟩

theorem GetAtomIndex_exists (tag : List ℕ) (l : List Atom) (k : ℕ)
    (hk : k < l.length) (hp : (l.getD k default).atom_type = tag) :
    ∃ j, GetAtomIndex tag l = some j ∧ j ≤ k := by
  induction l generalizing k with
  | nil => simp at hk
  | cons a l ih =>
      rw [GetAtomIndex]
      by_cases hpa : a.atom_type = tag
      · exact ⟨0, by rw [if_pos hpa], by omega⟩
      · rcases k with _ | k
        · exact absurd (by simpa using hp) hpa
        · obtain ⟨j, hj, hjk⟩ := ih k (by simpa using hk) (by simpa using hp)
          rw [if_neg hpa]
          exact ⟨j + 1, by rw [hj]; rfl, by omega⟩

theorem getD_set_self (l : List Atom) (n : ℕ) (x d : Atom) (h : n < l.length) :
    (l.set n x).getD n d = x := by
  induction l generalizing n with
  | nil => simp at h
  | cons a l ih =>
      cases n with
      | zero => rfl
      | succ n => simpa using ih n (by simpa using h)

theorem getD_set_ne (l : List Atom) (n k : ℕ) (x d : Atom) (h : n ≠ k) :
    (l.set n x).getD k d = l.getD k d := by
  induction l generalizing n k with
  | nil => simp
  | cons a l ih =>
      cases n with
      | zero =>
          cases k with
          | zero => omega
          | succ k => rfl
      | succ n =>
          cases k with
          | zero => rfl
          | succ k => simpa using ih n k (by omega)

theorem GetAtomIndex_set_before (atoms : List Atom) (moovIdx mdatIdx : ℕ)
    (x : Atom) (hmi : GetAtomIndex moovTag atoms = some moovIdx)
    (hdi : GetAtomIndex mdatTag atoms = some mdatIdx)
    (hlt : moovIdx < mdatIdx) (hx : x.atom_type = moovTag) :
    ∃ i j, GetAtomIndex moovTag (atoms.set moovIdx x) = some i ∧
      GetAtomIndex mdatTag (atoms.set moovIdx x) = some j ∧ i < j := by
  obtain ⟨h1, h2, h3⟩ := (GetAtomIndex_spec _ _ _).mp hmi
  obtain ⟨k1, k2, k3⟩ := (GetAtomIndex_spec _ _ _).mp hdi
  refine ⟨moovIdx, mdatIdx, ?_, ?_, hlt⟩
  · rw [GetAtomIndex_spec]
    refine ⟨by simpa using h1, by rw [getD_set_self _ _ _ _ h1]; exact hx, ?_⟩
    intro k hk
    rw [getD_set_ne _ _ _ _ _ (by omega)]
    exact h3 k hk
  · rw [GetAtomIndex_spec]
    refine ⟨by simpa using k1,
      by rw [getD_set_ne _ _ _ _ _ (by omega)]; exact k2, ?_⟩
    intro k hk
    by_cases hkm : k = moovIdx
    · subst hkm
      rw [getD_set_self _ _ _ _ h1, hx]
      decide
    · rw [getD_set_ne _ _ _ _ _ (by omega)]
      exact k3 k hk

theorem GetAtomIndex_swap_after (atoms : List Atom) (moovIdx mdatIdx : ℕ)
    (m x : Atom) (hmi : GetAtomIndex moovTag atoms = some moovIdx)
    (hdi : GetAtomIndex mdatTag atoms = some mdatIdx)
    (hlt : mdatIdx < moovIdx)
    (hm : m.atom_type = mdatTag) (hx : x.atom_type = moovTag) :
    ∃ i j, GetAtomIndex moovTag ((atoms.set moovIdx m).set mdatIdx x) = some i ∧
      GetAtomIndex mdatTag ((atoms.set moovIdx m).set mdatIdx x) = some j ∧
      i < j := by
  obtain ⟨h1, h2, h3⟩ := (GetAtomIndex_spec _ _ _).mp hmi
  obtain ⟨k1, k2, k3⟩ := (GetAtomIndex_spec _ _ _).mp hdi
  have hmoov : GetAtomIndex moovTag ((atoms.set moovIdx m).set mdatIdx x)
      = some mdatIdx := by
    rw [GetAtomIndex_spec]
    refine ⟨by simpa using k1,
      by rw [getD_set_self _ _ _ _ (by simpa using k1)]; exact hx, ?_⟩
    intro k hk
    rw [getD_set_ne _ _ _ _ _ (by omega), getD_set_ne _ _ _ _ _ (by omega)]
    exact h3 k (by omega)
  have hmd : (((atoms.set moovIdx m).set mdatIdx x).getD moovIdx
      default).atom_type = mdatTag := by
    rw [getD_set_ne _ _ _ _ _ (by omega), getD_set_self _ _ _ _ h1]
    exact hm
  obtain ⟨j, hj, hjle⟩ := GetAtomIndex_exists mdatTag _ moovIdx
    (by simpa using h1) hmd
  obtain ⟨j1, j2, j3⟩ := (GetAtomIndex_spec _ _ _).mp hj
  have hjgt : mdatIdx < j := by
    by_contra hle
    push_neg at hle
    rcases Nat.lt_or_ge j mdatIdx with hcase | hcase
    · rw [getD_set_ne _ _ _ _ _ (by omega), getD_set_ne _ _ _ _ _ (by omega)]
        at j2
      exact k3 j hcase j2
    · have hjm : j = mdatIdx := by omega
      subst hjm
      rw [getD_set_self _ _ _ _ (by simpa using k1)] at j2
      rw [hx] at j2
      exact absurd j2 (by decide)
  exact ⟨mdatIdx, j, hmoov, hj, hjgt⟩

theorem withChildren_children (a : Atom) (ch : AtomList) :
    (a.withChildren ch).children = ch := by
  obtain ⟨t, h, d, term, k, ch0⟩ := a
  rfl

theorem withChildren_type (a : Atom) (ch : AtomList) :
    (a.withChildren ch).atom_type = a.atom_type := by
  obtain ⟨t, h, d, term, k, ch0⟩ := a
  rfl

theorem updateFirst_some (p : Atom → Bool) (f : Atom → Option Atom)
    (hpres : ∀ x y, p x = true → f x = some y → p y = true) :
    ∀ (l l2 : AtomList), l.updateFirst p f = some l2 →
      ∃ a b, l.findFirst p = some a ∧ p a = true ∧ f a = some b ∧
        l2.findFirst p = some b
  | .nil, l2, h => by
      rw [AtomList.updateFirst] at h
      simp at h
  | .cons a as, l2, h => by
      rw [AtomList.updateFirst] at h
      by_cases hp : p a
      · rw [if_pos hp] at h
        cases hf : f a with
        | none => rw [hf] at h; simp at h
        | some b =>
            rw [hf] at h
            simp only [Option.map_some'] at h
            injection h with h
            subst h
            refine ⟨a, b, ?_, hp, hf, ?_⟩
            · rw [AtomList.findFirst, if_pos hp]
            · rw [AtomList.findFirst, if_pos (hpres a b hp hf)]
      · rw [if_neg hp] at h
        cases hu : as.updateFirst p f with
        | none => rw [hu] at h; simp at h
        | some as2 =>
            rw [hu] at h
            simp only [Option.map_some'] at h
            injection h with h
            subst h
            obtain ⟨x, y, h1, hpx, h2, h3⟩ := updateFirst_some p f hpres as as2 hu
            refine ⟨x, y, ?_, hpx, h2, ?_⟩
            · rw [AtomList.findFirst, if_neg hp]; exact h1
            · rw [AtomList.findFirst, if_neg hp]; exact h3

theorem isSTCOClass_adjustSTCO (a : Atom) (δ : ℤ) (h : isSTCOClass a = true) :
    isSTCOClass (a.adjustSTCO δ) = true := by
  obtain ⟨t, hs, d, term, k, ch⟩ := a
  cases k with
  | stco dat => rfl
  | dflt p => simp [isSTCOClass, Atom.kind] at h
  | container => simp [isSTCOClass, Atom.kind] at h

theorem pres_withChildren (tg : List ℕ) (o : Option AtomList)
    (x y : Atom) (hx : x.atom_type = tg)
    (hy : (o.bind fun ch2 => some (x.withChildren ch2)) = some y) :
    y.atom_type = tg := by
  rw [Option.bind_eq_some] at hy
  obtain ⟨ch2, _, hy2⟩ := hy
  injection hy2 with hy2
  rw [← hy2, withChildren_type]
  exact hx

theorem trakSTCO_adjust (δ : ℤ) (trak trak2 : Atom)
    (h : adjustTrakOffsets δ trak = some trak2) :
    ∃ s, trakSTCO trak = some s ∧
      trakSTCO trak2 = some (s.AdjustChunkOffsets δ) := by
  simp only [adjustTrakOffsets, Option.bind_eq_bind, Option.bind_eq_some,
    Option.some.injEq] at h
  obtain ⟨ch1, hu1, rfl⟩ := h
  obtain ⟨mdia, mdia2, hfind1, hp1, hf1, hfind1b⟩ :=
    updateFirst_some _ _ (fun x y hx hy => by
      simp only [decide_eq_true_eq] at hx ⊢
      exact pres_withChildren mdiaTag _ x y hx hy) _ _ hu1
  simp only [Option.bind_eq_bind, Option.bind_eq_some, Option.some.injEq] at hf1
  obtain ⟨ch2, hu2, rfl⟩ := hf1
  obtain ⟨minf, minf2, hfind2, hp2, hf2, hfind2b⟩ :=
    updateFirst_some _ _ (fun x y hx hy => by
      simp only [decide_eq_true_eq] at hx ⊢
      exact pres_withChildren minfTag _ x y hx hy) _ _ hu2
  simp only [Option.bind_eq_bind, Option.bind_eq_some, Option.some.injEq] at hf2
  obtain ⟨ch3, hu3, rfl⟩ := hf2
  obtain ⟨stbl, stbl2, hfind3, hp3, hf3, hfind3b⟩ :=
    updateFirst_some _ _ (fun x y hx hy => by
      simp only [decide_eq_true_eq] at hx ⊢
      exact pres_withChildren stblTag _ x y hx hy) _ _ hu3
  simp only [Option.bind_eq_bind, Option.bind_eq_some, Option.some.injEq] at hf3
  obtain ⟨ch4, hu4, rfl⟩ := hf3
  obtain ⟨stco, stco2, hfind4, hp4, hf4, hfind4b⟩ :=
    updateFirst_some _ _ (fun x y hx hy => by
      injection hy with hy
      rw [← hy]
      exact isSTCOClass_adjustSTCO x δ hx) _ _ hu4
  injection hf4 with hf4
  obtain ⟨ts, hs, ds, terms, ks, chs⟩ := stco
  cases ks with
  | dflt p => simp [isSTCOClass, Atom.kind] at hp4
  | container => simp [isSTCOClass, Atom.kind] at hp4
  | stco dat =>
  refine ⟨⟨ts, dat⟩, ?_, ?_⟩
  · simp only [trakSTCO, Option.bind_eq_bind]
    rw [hfind1]
    simp only [Option.some_bind]
    rw [hfind2]
    simp only [Option.some_bind]
    rw [hfind3]
    simp only [Option.some_bind]
    rw [hfind4]
    simp only [Option.some_bind]
    rfl
  · simp only [trakSTCO, Option.bind_eq_bind, withChildren_children]
    rw [hfind1b]
    simp only [Option.some_bind, withChildren_children]
    rw [hfind2b]
    simp only [Option.some_bind, withChildren_children]
    rw [hfind3b]
    simp only [Option.some_bind, withChildren_children]
    rw [hfind4b]
    simp only [Option.some_bind]
    rw [← hf4]
    rfl

theorem updateTracks_spec (f : Atom → Option Atom) :
    ∀ (l l2 : AtomList), l.updateTracks f = some l2 →
      List.Forall₂ (fun a a2 => (isTrakClass a = true ∧ f a = some a2) ∨
        (isTrakClass a = false ∧ a2 = a)) l.toList l2.toList
  | .nil, l2, h => by
      rw [AtomList.updateTracks] at h
      injection h with h
      subst h
      exact List.Forall₂.nil
  | .cons a as, l2, h => by
      rw [AtomList.updateTracks] at h
      rw [Option.bind_eq_some] at h
      obtain ⟨a2, ha2, h⟩ := h
      rw [Option.bind_eq_some] at h
      obtain ⟨as2, has2, h⟩ := h
      injection h with h
      subst h
      simp only [AtomList.toList]
      refine List.Forall₂.cons ?_ (updateTracks_spec f as as2 has2)
      by_cases ht : isTrakClass a = true
      · rw [if_pos ht] at ha2
        exact Or.inl ⟨ht, ha2⟩
      · rw [if_neg ht] at ha2
        injection ha2 with ha2
        exact Or.inr ⟨by simpa using ht, ha2.symm⟩

theorem AdjustTrackOffsets_spec (moov moov3 : Atom) (Δ : ℤ)
    (h : AdjustTrackOffsets moov Δ = some moov3) :
    moov3.atom_type = moov.atom_type ∧
    List.Forall₂ (fun tr tr2 =>
        (isTrakClass tr = true ∧ ∃ s, trakSTCO tr = some s ∧
          trakSTCO tr2 = some (s.AdjustChunkOffsets Δ)) ∨
        (isTrakClass tr = false ∧ tr2 = tr))
      moov.children.toList moov3.children.toList := by
  simp only [AdjustTrackOffsets, Option.bind_eq_bind, Option.bind_eq_some,
    Option.some.injEq] at h
  obtain ⟨ch, hch, rfl⟩ := h
  refine ⟨withChildren_type _ _, ?_⟩
  rw [withChildren_children]
  refine (updateTracks_spec _ _ _ hch).imp ?_
  rintro a b (⟨ht, hf⟩ | hok)
  · exact Or.inl ⟨ht, trakSTCO_adjust Δ a b hf⟩
  · exact Or.inr hok

/-- Counterexample to claim C3 as stated: on the fixture, the final mdat
byte position moves by 20 (the appended 16-byte free child plus the 4
bytes gained when the adjustment itself promotes stco to co64), but the
code adjusts the chunk-offset table by the pre-adjustment difference 16:
the single entry is written as 4294967286 + 16, not 4294967286 + 20. -/
theorem modify_moov_final_delta_mismatch :
    ModifyMoovAtoms cexModifier cexAtoms = some cexOut ∧
    GetAtomPosition cexAtoms mdatTag = 60 ∧
    GetAtomPosition cexOut mdatTag = 80 ∧
    ((cexOut.getD 0 default).children.findFirst isTrakClass).bind trakSTCO =
      some ⟨co64Tag, ⟨0, 0, [4294967286], 16, 4294967286⟩⟩ ∧
    STCOWriteData co64Tag ⟨0, 0, [4294967286], 16, 4294967286⟩ =
      PutUInt8 0 ++ PutUInt24 0 ++ PutUInt32 1 ++ PutUInt64 4294967302 ∧
    (4294967302 : ℕ) ≠ 4294967286 + (80 - 60) := by decide

/-- Claim C3 as amended: on the rewrite path the output always has moov
strictly before mdat (swapped when needed), and when the mdat position
moved, every track's chunk-offset table is adjusted by the difference Δ
computed before the adjustment runs (each entry is then written increased
by that Δ, with stco promoted to co64 per ReviewAtomType) — the final
mdat position can move further than Δ when the adjustment itself grows
the moov, as the counterexample shows. -/
theorem modify_moov_orders_and_adjusts (modifier : Atom → Option Atom)
    (atoms out : List Atom)
    (hmt : ∀ a b, modifier a = some b → b.atom_type = moovTag)
    (h : ModifyMoovAtoms modifier atoms = some out) :
    (∃ i j, GetAtomIndex moovTag out = some i ∧
      GetAtomIndex mdatTag out = some j ∧ i < j) ∧
    ∃ moovIdx mdatIdx moov2 atoms2 moovIdx2 Δ,
      GetAtomIndex moovTag atoms = some moovIdx ∧
      GetAtomIndex mdatTag atoms = some mdatIdx ∧
      modifier (atoms.getD moovIdx default) = some moov2 ∧
      atoms2 = (if moovIdx > mdatIdx
        then listSwap (atoms.set moovIdx moov2) moovIdx mdatIdx
        else atoms.set moovIdx moov2) ∧
      moovIdx2 = (if moovIdx > mdatIdx then mdatIdx else moovIdx) ∧
      Δ = (GetAtomPosition atoms2 mdatTag : ℤ) -
        (GetAtomPosition atoms mdatTag : ℤ) ∧
      (Δ = 0 → out = atoms2) ∧
      (Δ ≠ 0 → ∃ moov3,
        AdjustTrackOffsets (atoms2.getD moovIdx2 default) Δ = some moov3 ∧
        out = atoms2.set moovIdx2 moov3 ∧
        List.Forall₂ (fun tr tr2 =>
            (isTrakClass tr = true ∧ ∃ s, trakSTCO tr = some s ∧
              trakSTCO tr2 = some (s.AdjustChunkOffsets Δ)) ∨
            (isTrakClass tr = false ∧ tr2 = tr))
          (atoms2.getD moovIdx2 default).children.toList
          moov3.children.toList) := by
  simp only [ModifyMoovAtoms, Option.bind_eq_bind, Option.bind_eq_some] at h
  obtain ⟨moovIdx, hmi, h⟩ := h
  obtain ⟨mdatIdx, hdi, h⟩ := h
  obtain ⟨moov2, hmod, h⟩ := h
  obtain ⟨hmiL, hmiT, hmiF⟩ := (GetAtomIndex_spec moovTag atoms moovIdx).mp hmi
  obtain ⟨hdiL, hdiT, hdiF⟩ := (GetAtomIndex_spec mdatTag atoms mdatIdx).mp hdi
  have hne : moovIdx ≠ mdatIdx := by
    intro he
    have hcontra : moovTag = mdatTag := by rw [← hmiT, he, hdiT]
    exact absurd hcontra (by decide)
  have hm2 : moov2.atom_type = moovTag := hmt _ _ hmod
  by_cases hΔ : ((GetAtomPosition (if moovIdx > mdatIdx
      then listSwap (atoms.set moovIdx moov2) moovIdx mdatIdx
      else atoms.set moovIdx moov2) mdatTag : ℤ) -
      (GetAtomPosition atoms mdatTag : ℤ)) = 0
  · rw [if_pos hΔ] at h
    injection h with h
    refine ⟨?_, moovIdx, mdatIdx, moov2, _, _, _, hmi, hdi, hmod, rfl, rfl, rfl,
      fun _ => h.symm, fun hc => absurd hΔ hc⟩
    rw [← h]
    by_cases hsw : moovIdx > mdatIdx
    · rw [if_pos hsw]
      have hsEq : listSwap (atoms.set moovIdx moov2) moovIdx mdatIdx
          = (atoms.set moovIdx (atoms.getD mdatIdx default)).set mdatIdx
            moov2 := by
        simp only [listSwap]
        rw [getD_set_ne _ _ _ _ _ hne, getD_set_self _ _ _ _ hmiL, List.set_set]
      rw [hsEq]
      exact GetAtomIndex_swap_after atoms moovIdx mdatIdx
        (atoms.getD mdatIdx default) moov2 hmi hdi hsw hdiT hm2
    · rw [if_neg hsw]
      exact GetAtomIndex_set_before atoms moovIdx mdatIdx moov2 hmi hdi
        (by omega) hm2
  · rw [if_neg hΔ] at h
    rw [Option.bind_eq_some] at h
    obtain ⟨moov3, hadj, hout⟩ := h
    injection hout with hout
    obtain ⟨htype, hfa⟩ := AdjustTrackOffsets_spec _ _ _ hadj
    refine ⟨?_, moovIdx, mdatIdx, moov2, _, _, _, hmi, hdi, hmod, rfl, rfl, rfl,
      fun hc => absurd hc hΔ, fun _ => ⟨moov3, hadj, hout.symm, hfa⟩⟩
    rw [← hout]
    by_cases hsw : moovIdx > mdatIdx
    · simp only [if_pos hsw] at htype ⊢
      have hsEq : listSwap (atoms.set moovIdx moov2) moovIdx mdatIdx
          = (atoms.set moovIdx (atoms.getD mdatIdx default)).set mdatIdx
            moov2 := by
        simp only [listSwap]
        rw [getD_set_ne _ _ _ _ _ hne, getD_set_self _ _ _ _ hmiL, List.set_set]
      rw [hsEq] at htype ⊢
      have hg : ((atoms.set moovIdx (atoms.getD mdatIdx default)).set mdatIdx
          moov2).getD mdatIdx default = moov2 :=
        getD_set_self _ _ _ _ (by simpa using hdiL)
      rw [hg] at htype
      have hm3 : moov3.atom_type = moovTag := by rw [htype, hm2]
      rw [List.set_set]
      exact GetAtomIndex_swap_after atoms moovIdx mdatIdx
        (atoms.getD mdatIdx default) moov3 hmi hdi hsw hdiT hm3
    · simp only [if_neg hsw] at htype ⊢
      have hg : (atoms.set moovIdx moov2).getD moovIdx default = moov2 :=
        getD_set_self _ _ _ _ hmiL
      rw [hg] at htype
      have hm3 : moov3.atom_type = moovTag := by rw [htype, hm2]
      rw [List.set_set]
      exact GetAtomIndex_set_before atoms moovIdx mdatIdx moov3 hmi hdi
        (by omega) hm3

/-- Witness for C3: the counterexample fixture run through the theorem
(with the constant transformer that returns the already-extended moov)
shows moov before mdat in the output. -/
theorem modify_moov_orders_and_adjusts_witness :
    ∃ i j, GetAtomIndex moovTag cexOut = some i ∧
      GetAtomIndex mdatTag cexOut = some j ∧ i < j :=
  (modify_moov_orders_and_adjusts (fun _ => some w3Moov) cexAtoms cexOut
    (fun a b hb => by injection hb with hb; rw [← hb]; decide)
    (by decide)).1

/-! ## Claim C6: the no-fit path of ModifyMoovInPlace -/

theorem GetAtomPosition_eq (atoms : List Atom) (tag : List ℕ) :
    ∀ i, GetAtomIndex tag atoms = some i →
      GetAtomPosition atoms tag = ((atoms.map Atom.size).take i).sum := by
  induction atoms with
  | nil => intro i h; simp [GetAtomIndex] at h
  | cons a l ih =>
      intro i h
      rw [GetAtomIndex] at h
      rw [GetAtomPosition]
      by_cases hp : a.atom_type = tag
      · rw [if_pos hp]
        rw [if_pos hp] at h
        injection h with h
        subst h
        simp
      · rw [if_neg hp]
        rw [if_neg hp] at h
        rw [Option.map_eq_some'] at h
        obtain ⟨j, hj, rfl⟩ := h
        rw [ih j hj]
        simp only [List.map_cons, List.take_succ_cons, List.sum_cons]

theorem sum_take_lt (S : List ℕ) : ∀ i j : ℕ, i < j → i < S.length →
    (S.take i).sum + S.getD i 0 ≤ (S.take j).sum := by
  induction S with
  | nil => intro i j hij hi; simp at hi
  | cons s S ih =>
      intro i j hij hi
      cases i with
      | zero =>
          cases j with
          | zero => omega
          | succ j =>
              simp only [List.take_succ_cons, List.sum_cons, List.take_zero,
                List.sum_nil, List.getD_cons_zero]
              omega
      | succ i =>
          cases j with
          | zero => omega
          | succ j =>
              simp only [List.take_succ_cons, List.sum_cons, List.getD_cons_succ]
              have hih := ih i j (by omega) (by simpa using hi)
              omega

theorem getD_map_size (l : List Atom) : ∀ i, i < l.length →
    (l.map Atom.size).getD i 0 = (l.getD i default).size := by
  induction l with
  | nil => intro i h; simp at h
  | cons a l ih =>
      intro i h
      cases i with
      | zero => rfl
      | succ i => simpa using ih i (by simpa using h)

theorem getD_mem (l : List Atom) : ∀ i, i < l.length → l.getD i default ∈ l := by
  induction l with
  | nil => intro i h; simp at h
  | cons a l ih =>
      intro i h
      cases i with
      | zero => simp
      | succ i =>
          simp only [List.getD_cons_succ]
          exact List.mem_cons_of_mem a (ih i (by simpa using h))

/-- Claim C6: in ModifyMoovInPlace with moov before mdat, when the size
change neither equals the trailing free space nor leaves room for a free
header, the output is exactly two writes: the new moov at the original
end of file, and a free-atom header of the old moov size at the old moov
position; both writes lie outside the mdat byte range (whose tables the
in-place path never touches). -/
theorem modify_moov_in_place_no_fit (modifier : Atom → Option Atom)
    (atoms : List Atom) (inputSize moovIdx mdatIdx : ℕ) (moov2 : Atom)
    (bs : List ℕ)
    (hwfAll : TopWf atoms = true)
    (hsum : inputSize = (atoms.map Atom.size).sum)
    (hmi : GetAtomIndex moovTag atoms = some moovIdx)
    (hdi : GetAtomIndex mdatTag atoms = some mdatIdx)
    (horder : moovIdx < mdatIdx)
    (hmod : modifier (atoms.getD moovIdx default) = some moov2)
    (hwf2 : AtomWf moov2 = true)
    (hw2 : WriteAtom moov2 = some bs)
    (hnofit1 : (moov2.size : ℤ) - ((atoms.getD moovIdx default).size : ℤ) ≠
      (if (atoms.getD (moovIdx + 1) default).atom_type = freeTag
        then ((atoms.getD (moovIdx + 1) default).size : ℤ) else 0))
    (hnofit2 : ¬((moov2.size : ℤ) - ((atoms.getD moovIdx default).size : ℤ)
        + 8 ≤
      (if (atoms.getD (moovIdx + 1) default).atom_type = freeTag
        then ((atoms.getD (moovIdx + 1) default).size : ℤ) else 0))) :
    ModifyMoovInPlaceSegments modifier atoms inputSize =
      some [(inputSize, bs),
        (GetAtomPosition atoms moovTag,
          WriteFreeSpace ((atoms.getD moovIdx default).size % 2 ^ 32))] ∧
    GetAtomPosition atoms moovTag + 8 ≤ GetAtomPosition atoms mdatTag ∧
    GetAtomPosition atoms mdatTag + (atoms.getD mdatIdx default).size ≤
      inputSize := by
  obtain ⟨hmiL, hmiT, hmiF⟩ := (GetAtomIndex_spec moovTag atoms moovIdx).mp hmi
  obtain ⟨hdiL, hdiT, hdiF⟩ := (GetAtomIndex_spec mdatTag atoms mdatIdx).mp hdi
  refine ⟨?_, ?_, ?_⟩
  · have hwtop : WriteTopLevelAtoms [moov2] = some bs := by
      rw [WriteTopLevelAtoms, hw2]
      simp only [WriteTopLevelAtoms, Option.bind_eq_bind, Option.some_bind,
        List.append_nil]
    have hwaip : WriteAtomsInPlace [moov2] inputSize = some (inputSize, bs) := by
      simp only [WriteAtomsInPlace, Option.bind_eq_bind]
      rw [hwtop]
      simp only [Option.some_bind]
      rw [ReadTopLevelAtoms_write [moov2] bs (bs.length + 1)
        (by simp [TopWf, hwf2]) hwtop (by simp)]
      rw [if_neg (by simp)]
      rw [hwtop]
      simp only [Option.some_bind]
    simp only [ModifyMoovInPlaceSegments, Option.bind_eq_bind]
    rw [hmi]
    simp only [Option.some_bind]
    rw [hdi]
    simp only [Option.some_bind]
    rw [hmod]
    simp only [Option.some_bind]
    rw [if_neg (by omega : ¬moovIdx > mdatIdx)]
    rw [if_neg hnofit1, if_neg hnofit2]
    rw [hwaip]
    simp only [Option.some_bind]
  · rw [GetAtomPosition_eq atoms moovTag moovIdx hmi,
      GetAtomPosition_eq atoms mdatTag mdatIdx hdi]
    have hwfm : AtomWf (atoms.getD moovIdx default) = true := by
      simp only [TopWf, List.all_eq_true] at hwfAll
      exact hwfAll _ (getD_mem atoms moovIdx hmiL)
    have h8 := AtomWf_size _ hwfm
    have hst := sum_take_lt (atoms.map Atom.size) moovIdx mdatIdx horder
      (by simpa using hmiL)
    rw [getD_map_size atoms moovIdx hmiL] at hst
    omega
  · rw [GetAtomPosition_eq atoms mdatTag mdatIdx hdi, hsum]
    have hst := sum_take_lt (atoms.map Atom.size) mdatIdx
      (atoms.map Atom.size).length (by simpa using hdiL) (by simpa using hdiL)
    rw [getD_map_size atoms mdatIdx hdiL] at hst
    rw [List.take_length] at hst
    omega

/-- Witness for C6 on a 20-byte fixture: an 8-byte empty moov followed by
a 12-byte mdat; the transformed moov is 16 bytes and does not fit, so it
is appended at the end of file (position 20) and the old moov slot gets
an 8-byte free header. -/
theorem modify_moov_in_place_no_fit_witness :
    ModifyMoovInPlaceSegments (fun _ => some w6Moov2) w6Atoms 20 =
      some [(20, w6Bytes),
        (GetAtomPosition w6Atoms moovTag,
          WriteFreeSpace ((w6Atoms.getD 0 default).size % 2 ^ 32))] ∧
    GetAtomPosition w6Atoms moovTag + 8 ≤ GetAtomPosition w6Atoms mdatTag ∧
    GetAtomPosition w6Atoms mdatTag + (w6Atoms.getD 1 default).size ≤ 20 :=
  modify_moov_in_place_no_fit (fun _ => some w6Moov2) w6Atoms 20 0 1 w6Moov2
    w6Bytes (by decide) (by decide) (by decide) (by decide) (by decide) rfl
    (by decide) (by decide) (by decide) (by decide)

end vr180
